import Mathlib

/-!
csv2bin: text column to raw binary32 converter.

A shallow embedding of `scripts/csv2bin.c` and the properties of its single
function `main`.

The program talks to the C library only through `fopen`, `fscanf`, `fwrite`,
`fclose` and `printf`.  Their behaviour is modelled after ISO C (7.21.5.3,
7.21.6.2) and, where ISO C and the library differ on malformed numbers,
after the GNU C library:

* a file is a list of bytes (numbers below 256), a stream is the list of
  bytes not yet read;
* `fscanf(fid, "%s", hdr)` skips white space and stores the following run of
  non-white-space bytes plus a terminating zero into `hdr`;
* `fscanf(fid, "%f\n", &val)` skips white space and reads bytes as long as
  they continue a number; what has been read is converted when `strtof`
  converts a part of it, so that `1e` is converted (to 1), `nan(1)` is read
  as `nan` with `(1)` left unread, and a wrong letter inside `nan`, `inf` or
  `infinity` is consumed by the failed conversion; after a conversion the
  white space that follows is skipped;
* the conversion from the bytes read to the four bytes of a `float` depends
  on the host and is a parameter `strtof` of the embedding, applied to the
  bytes as they stand in the file (the library lowers the case of the
  exponent letter first, which does not change the number); `strtofIEEE` is
  the usual instance (IEEE-754 binary32, round to nearest even, little
  endian);
* `int` is 32 bits wide and wraps around in two's complement;
* an unbounded `while` loop is run with a bound on its number of iterations
  (`fuel`); `none` means that the loop is still running after that many
  iterations.
-/

namespace Csv2bin

/-! ## Bytes and text -/

/-- The bytes of an ASCII text. -/
def bytes (s : String) : List Nat := s.toList.map Char.toNat

/-- The bytes a `float` occupies in memory, lowest address first
(`sizeof(float)` is 4). -/
structure Float32 where
  b0 : Nat
  b1 : Nat
  b2 : Nat
  b3 : Nat
deriving DecidableEq, Repr

/-- What `fwrite(&val, sizeof(float), 1, out)` appends to the stream. -/
def Float32.toBytes (v : Float32) : List Nat := [v.b0, v.b1, v.b2, v.b3]

/-- White space in the C locale: space, `\t`, `\n`, `\v`, `\f`, `\r`. -/
def isspace (c : Nat) : Bool := c == 32 || (9 ≤ c && c ≤ 13)

/-- Decimal digit. -/
def isdigit (c : Nat) : Bool := 48 ≤ c && c ≤ 57

/-- Upper-case letters folded to lower case. -/
def tolower (c : Nat) : Nat := if 65 ≤ c ∧ c ≤ 90 then c + 32 else c

/-- Hexadecimal digit. -/
def isxdigit (c : Nat) : Bool :=
  isdigit c || (97 ≤ tolower c && tolower c ≤ 102)

/-- The white-space directive of `fscanf`: read up to the first byte that
is not white space. -/
def skipSpace (s : List Nat) : List Nat := s.dropWhile isspace

/-! ## The item read by `%f` -/

/-- States of the reader of a `%f` item, named after what has been read: an
optional sign, then a decimal number (`zero` is a single leading `0`, `dot0`
a point without digits, `e` and `esign` an exponent letter and its sign), a
hexadecimal number (`hexX` is `0x`, `hexDot0` is `0x.`), or the letters of
`inf`, `infinity` and `nan`. -/
inductive FState where
  | start | sign
  | zero | int | dot0 | frac | e | esign | exp
  | hexX | hexInt | hexDot0 | hexFrac | hexP | hexPSign | hexExp
  | wI | wIn | wInf | wInfi | wInfin | wInfini | wInfinit | wInfinity
  | wN | wNa | wNan
deriving DecidableEq, Repr

/-- Transitions after the optional sign has been seen or skipped. -/
def fstepNoSign (c : Nat) : Option FState :=
  if c = 48 then some .zero
  else if isdigit c then some .int
  else if c = 46 then some .dot0
  else if tolower c = 105 then some .wI
  else if tolower c = 110 then some .wN
  else none

/-- One step of the reader: the state after the byte `c` has been added to
the item; `none` when `c` does not belong to the item read so far. -/
def fstep : FState → Nat → Option FState
  | .start, c => if c = 43 ∨ c = 45 then some .sign else fstepNoSign c
  | .sign, c => fstepNoSign c
  | .zero, c =>
      if isdigit c then some .int
      else if c = 46 then some .frac
      else if tolower c = 101 then some .e
      else if tolower c = 120 then some .hexX
      else none
  | .int, c =>
      if isdigit c then some .int
      else if c = 46 then some .frac
      else if tolower c = 101 then some .e
      else none
  | .dot0, c => if isdigit c then some .frac else none
  | .frac, c =>
      if isdigit c then some .frac
      else if tolower c = 101 then some .e
      else none
  | .e, c =>
      if isdigit c then some .exp
      else if c = 43 ∨ c = 45 then some .esign
      else none
  | .esign, c => if isdigit c then some .exp else none
  | .exp, c => if isdigit c then some .exp else none
  | .hexX, c =>
      if isxdigit c then some .hexInt
      else if c = 46 then some .hexDot0
      else none
  | .hexInt, c =>
      if isxdigit c then some .hexInt
      else if c = 46 then some .hexFrac
      else if tolower c = 112 then some .hexP
      else none
  | .hexDot0, c => if isxdigit c then some .hexFrac else none
  | .hexFrac, c =>
      if isxdigit c then some .hexFrac
      else if tolower c = 112 then some .hexP
      else none
  | .hexP, c =>
      if isdigit c then some .hexExp
      else if c = 43 ∨ c = 45 then some .hexPSign
      else none
  | .hexPSign, c => if isdigit c then some .hexExp else none
  | .hexExp, c => if isdigit c then some .hexExp else none
  | .wI, c => if tolower c = 110 then some .wIn else none
  | .wIn, c => if tolower c = 102 then some .wInf else none
  | .wInf, c => if tolower c = 105 then some .wInfi else none
  | .wInfi, c => if tolower c = 110 then some .wInfin else none
  | .wInfin, c => if tolower c = 105 then some .wInfini else none
  | .wInfini, c => if tolower c = 116 then some .wInfinit else none
  | .wInfinit, c => if tolower c = 121 then some .wInfinity else none
  | .wInfinity, _ => none
  | .wN, c => if tolower c = 97 then some .wNa else none
  | .wNa, c => if tolower c = 110 then some .wNan else none
  | .wNan, _ => none

/-- The states in which the item read so far is converted: it is not
empty after the sign, is more than `0x`, and starts with a number, so that
`strtof` converts a part of it.  An unfinished exponent (`1e`, `1e+`,
`0x1p`) and `0x.` are converted; a lone point is not. -/
def FState.accepting : FState → Bool
  | .zero | .int | .frac | .e | .esign | .exp => true
  | .hexInt | .hexDot0 | .hexFrac | .hexP | .hexPSign | .hexExp => true
  | .wInf | .wInfinity | .wNan => true
  | _ => false

/-- The states inside the words `nan`, `inf` and `infinity`, in which the
next byte is read and compared with the expected letter: when it differs
the conversion fails and the byte is not put back. -/
def FState.swallows : FState → Bool
  | .wN | .wNa | .wI | .wIn => true
  | .wInfi | .wInfin | .wInfini | .wInfinit => true
  | _ => false

/-- The input item of `%f`: starting in state `st` with `acc` already read,
read bytes as long as they belong to the item.  Returns the item, the state
reached and the unread rest of the stream; the byte that ends the item is
put back, except inside a word. -/
def scanFloat : FState → List Nat → List Nat → List Nat × FState × List Nat
  | st, acc, [] => (acc, st, [])
  | st, acc, c :: cs =>
      match fstep st c with
      | some st1 => scanFloat st1 (acc ++ [c]) cs
      | none => if st.swallows then (acc, st, cs) else (acc, st, c :: cs)

/-! ## `fscanf` -/

/-- Result of `fscanf(fid, "%s", hdr)` with `char hdr[256]`. -/
inductive ScanS where
  /-- End of file before any byte of a token: returns `EOF`, `hdr` untouched. -/
  | eof
  /-- The token and its terminating zero fit into `hdr`: returns 1. -/
  | stored (hdr : List Nat) (rest : List Nat)
  /-- The token and its terminating zero need more than 256 bytes: the
  store runs past the end of `hdr`. -/
  | overflow
deriving DecidableEq, Repr

/-- Capacity of `char hdr[256]`. -/
def hdrSize : Nat := 256

/-- Model of `fscanf(fid, "%s", hdr)`: skip white space, then read up to
the next white-space byte (no field width is given). -/
def fscanf_s (fid : List Nat) : ScanS :=
  match skipSpace fid with
  | [] => .eof
  | c :: cs =>
      let tok := (c :: cs).takeWhile (fun b => !isspace b)
      if tok.length + 1 ≤ hdrSize then
        .stored tok ((c :: cs).dropWhile (fun b => !isspace b))
      else .overflow

/-- Result of `fscanf(fid, "%f\n", &val)`. -/
inductive ScanF where
  /-- End of file before any byte of a number: returns `EOF`. -/
  | eof
  /-- Matching failure: returns 0, `val` keeps its old value. -/
  | nomatch (rest : List Nat)
  /-- The item `lit` was converted and stored in `val`: returns 1. -/
  | assigned (lit : List Nat) (rest : List Nat)
deriving DecidableEq, Repr

/-- Model of `fscanf(fid, "%f\n", &val)`: skip white space, read the item,
and when it is converted skip the white space after it. -/
def fscanf_f (fid : List Nat) : ScanF :=
  match skipSpace fid with
  | [] => .eof
  | c :: cs =>
      match scanFloat .start [] (c :: cs) with
      | (lit, st, rest) =>
          if st.accepting then .assigned lit (skipSpace rest)
          else .nomatch rest

/-! ## Machine integers -/

/-- The value of an `int`: reduction into `[-2^31, 2^31)`. -/
def toInt32 (z : Int) : Int := (z + 2147483648) % 4294967296 - 2147483648

/-! ## The file system -/

/-- A file: its bytes and whether it may be opened for reading or writing. -/
structure File where
  data : List Nat
  readable : Bool
  writable : Bool
deriving DecidableEq, Repr

/-- The part of the file system `main` can see: the files by path, and the
paths at which a missing file can be created. -/
structure FileSys where
  file : String → Option File
  creatable : String → Bool

/-- Replace the file at `path`. -/
def FileSys.set (fs : FileSys) (path : String) (f : File) : FileSys :=
  { fs with file := fun p => if p = path then some f else fs.file p }

/-- The bytes of the file at `path` (nothing when there is none). -/
def FileSys.dataAt (fs : FileSys) (path : String) : List Nat :=
  match fs.file path with
  | some f => f.data
  | none => []

/-- Model of `fopen(path, "r")`: `false` stands for `NULL`. -/
def fopen_r (fs : FileSys) (path : String) : Bool :=
  match fs.file path with
  | some f => f.readable
  | none => false

/-- Model of `fopen(path, "wb")`: truncates the file or creates it; `none`
stands for `NULL`. -/
def fopen_wb (fs : FileSys) (path : String) : Option FileSys :=
  match fs.file path with
  | some f => if f.writable then some (fs.set path { f with data := [] }) else none
  | none =>
      if fs.creatable path then some (fs.set path ⟨[], true, true⟩) else none

/-- The bytes written through `out` have reached the file at `fclose(out)`. -/
def FileSys.flush (fs : FileSys) (path : String) (written : List Nat) : FileSys :=
  match fs.file path with
  | some f => fs.set path { f with data := f.data ++ written }
  | none => fs

/-! ## The host's `float` -/

/-- Value of a decimal or hexadecimal digit. -/
def digitVal (c : Nat) : Nat := if isdigit c then c - 48 else tolower c - 87

/-- Value of a run of digits in the given base. -/
def digitsVal (base : Nat) (ds : List Nat) : Nat :=
  ds.foldl (fun n c => n * base + digitVal c) 0

/-- Number of binary digits of `n`, computed in at most `fuel` steps. -/
def bitLength : Nat → Nat → Nat
  | 0, _ => 0
  | fuel + 1, n => if n = 0 then 0 else bitLength fuel (n / 2) + 1

/-- The quotient `num / den` rounded to the nearest integer, ties to even. -/
def roundDiv (num den : Nat) : Nat :=
  if 2 * (num % den) < den then num / den
  else if den < 2 * (num % den) then num / den + 1
  else if num / den % 2 = 0 then num / den
  else num / den + 1

/-- The binary32 bit pattern (without sign) nearest to `num / den`, for
`0 < den`: round to nearest even, gradual underflow, overflow to infinity. -/
def binary32Bits (num den : Nat) : Nat :=
  if num = 0 then 0
  else
    let e0 : Int := (bitLength num num : Int) - (bitLength den den : Int)
    let e : Int :=
      if den * 2 ^ e0.toNat ≤ num * 2 ^ (-e0).toNat then e0 else e0 - 1
    let ee : Int := max e (-126)
    let q : Int := ee - 23
    let m := roundDiv (num * 2 ^ (-q).toNat) (den * 2 ^ q.toNat)
    min ((ee + 126).toNat * 8388608 + m) 2139095040

/-- The four bytes of a 32-bit pattern on a little-endian host. -/
def float32OfBits (bits : Nat) : Float32 :=
  ⟨bits % 256, bits / 256 % 256, bits / 65536 % 256, bits / 16777216 % 256⟩

/-- Split an optional sign off an item: whether it is negative, and what
follows. -/
def splitSign : List Nat → Bool × List Nat
  | 45 :: cs => (true, cs)
  | 43 :: cs => (false, cs)
  | cs => (false, cs)

/-- The exponent part (`e` or `p`, optional sign, decimal digits) as a
number; 0 when there is none. -/
def exponentVal : List Nat → Int
  | _ :: cs =>
      match splitSign cs with
      | (true, ds) => -(digitsVal 10 ds : Int)
      | (false, ds) => (digitsVal 10 ds : Int)
  | [] => 0

/-- The unsigned bit pattern of `mant * base ^ frac.length⁻¹ * scale ^ ex`
given as digits: integer digits `ip`, fraction digits `fp`, exponent `ex`
counted in powers of `scale`. -/
def bitsOfDigits (base scale : Nat) (ip fp : List Nat) (ex : Int) : Nat :=
  let mant := digitsVal base (ip ++ fp)
  binary32Bits (mant * scale ^ ex.toNat) (base ^ fp.length * scale ^ (-ex).toNat)

/-- The unsigned bit pattern of a number written with digits selected by
`isd` in base `base`, whose exponent counts powers of `scale`. -/
def bitsOfNumber (isd : Nat → Bool) (base scale : Nat) (body : List Nat) : Nat :=
  let ip := body.takeWhile isd
  match body.dropWhile isd with
  | 46 :: cs =>
      bitsOfDigits base scale ip (cs.takeWhile isd) (exponentVal (cs.dropWhile isd))
  | r => bitsOfDigits base scale ip [] (exponentVal r)

/-- The usual conversion of an item to a `float`: the number at its start
(an exponent letter without digits counts for nothing), as IEEE-754
binary32, round to nearest even, stored little endian. -/
def strtofIEEE (lit : List Nat) : Float32 :=
  match splitSign lit with
  | (neg, body) =>
      let mag :=
        match body.map tolower with
        | 105 :: _ => 2139095040
        | 110 :: _ => 2143289344
        | 48 :: 120 :: _ => bitsOfNumber isxdigit 16 2 (body.drop 2)
        | _ => bitsOfNumber isdigit 10 10 body
      float32OfBits (if neg then 2147483648 + mag else mag)

/-- The 32-bit pattern stored in the four bytes of a `float` on a
little-endian host. -/
def Float32.bits (v : Float32) : Nat :=
  v.b0 + 256 * v.b1 + 65536 * v.b2 + 16777216 * v.b3

/-- Halve `m` while it is even, at most `fuel` times, counting in `e`. -/
def oddPart : Nat → Nat → Int → Nat × Int
  | 0, m, e => (m, e)
  | fuel + 1, m, e =>
      if m ≠ 0 ∧ m % 2 = 0 then oddPart fuel (m / 2) (e + 1) else (m, e)

/-- The number a finite binary32 pattern stands for, as a pair `(m, e)`
with value `m * 2 ^ e` and `m` odd or zero; `none` for infinities and NaN. -/
def binary32Value (bits : Nat) : Option (Int × Int) :=
  let e := bits / 8388608 % 256
  let m := bits % 8388608
  if e = 255 then none
  else
    let me : Nat × Int :=
      if e = 0 then oddPart 24 m (-149) else oddPart 24 (8388608 + m) ((e : Int) - 150)
    some (if bits / 2147483648 % 2 = 1 then -(me.1 : Int) else (me.1 : Int), me.2)

/-- Decode a file as a sequence of little-endian binary32 records. -/
def decodeAll : List Nat → List (Option (Int × Int))
  | b0 :: b1 :: b2 :: b3 :: rest =>
      binary32Value (Float32.bits ⟨b0, b1, b2, b3⟩) :: decodeAll rest
  | _ => []

/-! ## Vocabulary of the specification -/

/-- Split into white-space-delimited tokens; `cur` is the token being read. -/
def tokensAux : List Nat → List Nat → List (List Nat)
  | cur, [] => if cur = [] then [] else [cur]
  | cur, c :: cs =>
      if isspace c then
        if cur = [] then tokensAux [] cs else cur :: tokensAux [] cs
      else tokensAux (cur ++ [c]) cs

/-- The sequence of white-space-delimited tokens of a text. -/
def tokens (s : List Nat) : List (List Nat) := tokensAux [] s

/-- An exponent part: `e` or `E`, an optional sign, at least one digit. -/
def isExponentPart : List Nat → Bool
  | c :: cs =>
      tolower c == 101 &&
        (let ds := (splitSign cs).2
         !ds.isEmpty && ds.all isdigit)
  | [] => false

/-- What may follow the integer digits `ip` of a decimal literal: a point
and fraction digits (at least one digit in all) and then an optional
exponent part, or just an optional exponent part after at least one digit. -/
def isDecimalRest (ip : List Nat) : List Nat → Bool
  | 46 :: cs =>
      (!ip.isEmpty || !(cs.takeWhile isdigit).isEmpty) &&
        ((cs.dropWhile isdigit).isEmpty || isExponentPart (cs.dropWhile isdigit))
  | r => !ip.isEmpty && (r.isEmpty || isExponentPart r)

/-- A decimal numeric literal: an optional sign, digits with an optional
fractional part (at least one digit in all), and an optional exponent. -/
def isDecimalLiteral (t : List Nat) : Bool :=
  isDecimalRest ((splitSign t).2.takeWhile isdigit)
    ((splitSign t).2.dropWhile isdigit)

/-- The records a run writes for the parsed literals `lits`, in order. -/
def encodeAll (strtof : List Nat → Float32) (lits : List (List Nat)) :
    List Nat :=
  (lits.map (fun l => (strtof l).toBytes)).flatten

/-- Run the reader over a whole byte string; `none` when a byte does not
belong to the item. -/
def frun : FState → List Nat → Option FState
  | st, [] => some st
  | st, c :: cs =>
      match fstep st c with
      | some st1 => frun st1 cs
      | none => none

/-- A token that `%f` reads to its end and converts. -/
def matchesFloat (t : List Nat) : Bool :=
  match frun .start t with
  | some st => st.accepting
  | none => false

/-! ## `main` -/

/-- How a run of `main` ends. -/
inductive Outcome where
  /-- Return from `main` with `status`, after printing `stdout`, leaving the
  file system `fs`; `opened` lists the `fopen` calls made (path and mode). -/
  | exit (status : Int) (stdout : String) (fs : FileSys)
      (opened : List (String × String))
  /-- The run left the behaviour defined by ISO C (store past the end of
  `hdr`, or a null stream passed to `fwrite` or `fclose`). -/
  | undefined

/-- The variables of `main` that the loop reads and writes. -/
structure LoopState where
  /-- Unread bytes of the input stream. -/
  fid : List Nat
  /-- Bytes written to the output stream. -/
  out : List Nat
  /-- Value of `float val`. -/
  val : Float32
  /-- Value of `int i`. -/
  i : Int
deriving DecidableEq, Repr

/-- The loop `while(fscanf(fid, "%f\n", &val) != EOF){ fwrite(...); i++; }`,
run for at most `fuel` evaluations of its condition. -/
def loop (strtof : List Nat → Float32) : Nat → LoopState → Option LoopState
  | 0, _ => none
  | fuel + 1, s =>
      match fscanf_f s.fid with
      | .eof => some s
      | .nomatch rest =>
          loop strtof fuel
            { fid := rest, out := s.out ++ s.val.toBytes, val := s.val,
              i := toInt32 (s.i + 1) }
      | .assigned lit rest =>
          loop strtof fuel
            { fid := rest, out := s.out ++ (strtof lit).toBytes,
              val := strtof lit, i := toInt32 (s.i + 1) }

/-- The line printed by
`printf("Wrote %i values to %s (%i bytes)\n", i, argv[2], i*4)`. -/
def report (i : Int) (outPath : String) : String :=
  "Wrote " ++ toString i ++ " values to " ++ outPath ++ " (" ++
    toString (toInt32 (i * 4)) ++ " bytes)\n"

/-- Lines 25 to 36 of `main`: the read loop on the stream `fid`, the two
`fclose` calls and the report. -/
def readAndReport (strtof : List Nat → Float32) (val0 : Float32) (fuel : Nat)
    (fid : List Nat) (inPath outPath : String) (fs1 : FileSys) :
    Option Outcome :=
  match loop strtof fuel ⟨fid, [], val0, 0⟩ with
  | none => none
  | some s =>
      some (.exit 0 (report s.i outPath) (fs1.flush outPath s.out)
        [(inPath, "r"), (outPath, "wb")])

/-- The function `main` of `csv2bin.c`.  `argv` holds the program name and
the arguments (`argc` is its length), `val0` is the indeterminate initial
content of `val`, `fs` the file system before the run. -/
def main (strtof : List Nat → Float32) (val0 : Float32) (fuel : Nat)
    (argv : List String) (fs : FileSys) : Option Outcome :=
  if argv.length < 3 then
    some (.exit 1 "Usage: csv2bin INPUT OUTPUT\n" fs [])
  else
    let inPath := argv.getD 1 ""
    let outPath := argv.getD 2 ""
    if fopen_r fs inPath = false then
      some (.exit 1 ("Error: " ++ inPath ++ " could not be open\n") fs
        [(inPath, "r")])
    else
      match fopen_wb fs outPath with
      | none => some .undefined
      | some fs1 =>
          match fscanf_s (fs1.dataAt inPath) with
          | .overflow => some .undefined
          | .eof => readAndReport strtof val0 fuel [] inPath outPath fs1
          | .stored _ rest =>
              readAndReport strtof val0 fuel rest inPath outPath fs1

/-! ## Vocabulary for runs -/

/-- The run gets past both `fopen` calls: `fs1` is the file system once the
output has been opened, and `input` is what the input stream then holds. -/
def Opens (fs : FileSys) (inPath outPath : String) (fs1 : FileSys)
    (input : List Nat) : Prop :=
  fopen_r fs inPath = true ∧ fopen_wb fs outPath = some fs1 ∧
    fs1.dataAt inPath = input

/-- What can be observed of a finished run: exit status, console output and
the bytes of the file at `outPath`; nothing when the run left defined
behaviour. -/
def Outcome.observe (outPath : String) : Outcome → Option (Int × String × List Nat)
  | .exit status stdout fs _ => some (status, stdout, fs.dataAt outPath)
  | .undefined => none

/-- The console output of a finished run. -/
def Outcome.stdout? : Outcome → Option String
  | .exit _ stdout _ _ => some stdout
  | .undefined => none

/-- What is left after a token starts with white space or is empty. -/
def AtSpace (r : List Nat) : Prop :=
  r = [] ∨ ∃ c cs, r = c :: cs ∧ isspace c = true

/-- A text made of the given lines, each ended by a newline. -/
def unlines (ls : List (List Nat)) : List Nat :=
  (ls.map (fun l => l ++ [10])).flatten

/-- A file system with a readable input file `in.csv` holding `input` and
no other file; any file can be created. -/
def fsWith (input : List Nat) : FileSys :=
  ⟨fun p => if p = "in.csv" then some ⟨input, true, false⟩ else none,
    fun _ => true⟩

/-- The file system `fsWith input` once `out.bin` has been opened for writing. -/
def fsWithOut (input : List Nat) : FileSys :=
  (fsWith input).set "out.bin" ⟨[], true, true⟩

/-- The command line `csv2bin in.csv out.bin`. -/
def argvEx : List String := ["csv2bin", "in.csv", "out.bin"]

/-! ## White space and the automaton -/

theorem isspace_cases {c : Nat} (h : isspace c = true) :
    c = 9 ∨ c = 10 ∨ c = 11 ∨ c = 12 ∨ c = 13 ∨ c = 32 := by
  simp [isspace] at h
  omega

/-- The automaton has no transition on white space. -/
theorem fstep_space (st : FState) {c : Nat} (h : isspace c = true) :
    fstep st c = none := by
  rcases isspace_cases h with h | h | h | h | h | h <;> subst h <;>
    cases st <;> rfl

theorem skipSpace_idem (s : List Nat) : skipSpace (skipSpace s) = skipSpace s := by
  induction s with
  | nil => rfl
  | cons c cs ih =>
      by_cases hc : isspace c = true
      · simpa [skipSpace, List.dropWhile_cons, hc] using ih
      · simp [skipSpace, List.dropWhile_cons, hc]

theorem skipSpace_cons_of_not {c : Nat} (cs : List Nat) (h : isspace c = false) :
    skipSpace (c :: cs) = c :: cs := by
  simp [skipSpace, List.dropWhile_cons, h]

theorem skipSpace_head {s : List Nat} {c : Nat} {cs : List Nat}
    (h : skipSpace s = c :: cs) : isspace c = false := by
  induction s with
  | nil => simp [skipSpace] at h
  | cons d ds ih =>
      by_cases hd : isspace d = true
      · apply ih
        simpa [skipSpace, List.dropWhile_cons, hd] using h
      · simp only [skipSpace, List.dropWhile_cons, hd] at h
        simp only [Bool.false_eq_true, if_false, List.cons.injEq] at h
        rw [← h.1]
        simpa using hd

theorem atSpace_dropWhile (s : List Nat) :
    AtSpace (s.dropWhile (fun b => !isspace b)) := by
  induction s with
  | nil => exact Or.inl rfl
  | cons c cs ih =>
      by_cases hc : isspace c = true
      · right
        exact ⟨c, cs, by simp [List.dropWhile_cons, hc], hc⟩
      · simpa [List.dropWhile_cons, hc] using ih

/-- A state in which the item is converted is not inside a word. -/
theorem swallows_of_accepting {st : FState} (h : st.accepting = true) :
    st.swallows = false := by
  cases st <;> first | rfl | simp [FState.accepting] at h

theorem scanFloat_append {st st1 : FState} {lit rest : List Nat}
    (acc : List Nat) (hrun : frun st lit = some st1)
    (hacc : st1.accepting = true) (hrest : AtSpace rest) :
    scanFloat st acc (lit ++ rest) = (acc ++ lit, st1, rest) := by
  induction lit generalizing st acc with
  | nil =>
      simp only [frun, Option.some.injEq] at hrun
      subst hrun
      rcases hrest with h | ⟨c, cs, h, hc⟩
      · subst h; simp [scanFloat]
      · subst h
        simp [scanFloat, fstep_space st hc, swallows_of_accepting hacc]
  | cons d ds ih =>
      simp only [frun] at hrun
      cases hd : fstep st d with
      | none => simp [hd] at hrun
      | some st2 =>
          simp only [hd] at hrun
          have h2 := ih (acc ++ [d]) hrun
          simp only [List.cons_append, scanFloat, hd]
          simpa using h2

/-! ## Tokens -/

theorem tokensAux_of_cur {cur : List Nat} (s : List Nat) (h : cur ≠ []) :
    tokensAux cur s =
      (cur ++ s.takeWhile (fun b => !isspace b)) ::
        tokens (s.dropWhile (fun b => !isspace b)) := by
  induction s generalizing cur with
  | nil => simp [tokensAux, tokens, h]
  | cons c cs ih =>
      by_cases hc : isspace c = true
      · simp [tokensAux, tokens, hc, h, List.takeWhile_cons, List.dropWhile_cons]
      · have hne : cur ++ [c] ≠ [] := by simp
        simp [tokensAux, hc, List.takeWhile_cons, List.dropWhile_cons, ih hne]

theorem tokens_skipSpace (s : List Nat) : tokens (skipSpace s) = tokens s := by
  induction s with
  | nil => rfl
  | cons c cs ih =>
      by_cases hc : isspace c = true
      · have h1 : skipSpace (c :: cs) = skipSpace cs := by
          simp [skipSpace, List.dropWhile_cons, hc]
        have h2 : tokens (c :: cs) = tokens cs := by
          simp [tokens, tokensAux, hc]
        rw [h1, h2, ih]
      · have hc1 : isspace c = false := by simpa using hc
        rw [skipSpace_cons_of_not cs hc1]

theorem tokens_of_skipSpace_nil {s : List Nat} (h : skipSpace s = []) :
    tokens s = [] := by
  rw [← tokens_skipSpace, h]
  rfl

theorem tokens_of_skipSpace_cons {s : List Nat} {c : Nat} {cs : List Nat}
    (h : skipSpace s = c :: cs) :
    tokens s =
      (c :: cs).takeWhile (fun b => !isspace b) ::
        tokens ((c :: cs).dropWhile (fun b => !isspace b)) := by
  have hc : isspace c = false := skipSpace_head h
  rw [← tokens_skipSpace, h]
  have h1 : tokens (c :: cs) = tokensAux [c] cs := by
    simp [tokens, tokensAux, hc]
  rw [h1, tokensAux_of_cur cs (by simp)]
  simp [List.takeWhile_cons, List.dropWhile_cons, hc]

theorem skipSpace_of_tokens_nil {s : List Nat} (h : tokens s = []) :
    skipSpace s = [] := by
  cases hs : skipSpace s with
  | nil => rfl
  | cons c cs =>
      rw [tokens_of_skipSpace_cons hs] at h
      simp at h

/-- The first token of a text and what follows it. -/
theorem skipSpace_of_tokens_cons {s t : List Nat} {ts : List (List Nat)}
    (h : tokens s = t :: ts) :
    ∃ c cs rest, skipSpace s = c :: cs ∧ c :: cs = t ++ rest ∧
      t = (c :: cs).takeWhile (fun b => !isspace b) ∧
      rest = (c :: cs).dropWhile (fun b => !isspace b) ∧
      AtSpace rest ∧ tokens rest = ts := by
  cases hs : skipSpace s with
  | nil => rw [tokens_of_skipSpace_nil hs] at h; simp at h
  | cons c cs =>
      rw [tokens_of_skipSpace_cons hs] at h
      simp only [List.cons.injEq] at h
      refine ⟨c, cs, (c :: cs).dropWhile (fun b => !isspace b), rfl, ?_, h.1.symm,
        rfl, atSpace_dropWhile _, h.2⟩
      rw [← h.1]
      exact (List.takeWhile_append_dropWhile _ _).symm

/-! ## The two `fscanf` calls on tokens -/

theorem fscanf_s_of_tokens_nil {s : List Nat} (h : tokens s = []) :
    fscanf_s s = .eof := by
  simp [fscanf_s, skipSpace_of_tokens_nil h]

theorem fscanf_s_of_tokens_cons {s hdr : List Nat} {ts : List (List Nat)}
    (h : tokens s = hdr :: ts) (hlen : hdr.length < hdrSize) :
    ∃ rest, fscanf_s s = .stored hdr rest ∧ tokens rest = ts := by
  obtain ⟨c, cs, rest, hs, -, ht, hr, -, htok⟩ := skipSpace_of_tokens_cons h
  refine ⟨rest, ?_, htok⟩
  simp only [fscanf_s, hs]
  rw [← ht, ← hr, if_pos (by omega)]

theorem fscanf_s_overflow {s hdr : List Nat} {ts : List (List Nat)}
    (h : tokens s = hdr :: ts) (hlen : hdrSize ≤ hdr.length) :
    fscanf_s s = .overflow := by
  obtain ⟨c, cs, rest, hs, -, ht, -, -, -⟩ := skipSpace_of_tokens_cons h
  simp only [fscanf_s, hs]
  rw [← ht, if_neg (by omega)]

theorem fscanf_f_of_tokens_nil {s : List Nat} (h : tokens s = []) :
    fscanf_f s = .eof := by
  simp [fscanf_f, skipSpace_of_tokens_nil h]

theorem fscanf_f_of_tokens_cons {s t : List Nat} {ts : List (List Nat)}
    (h : tokens s = t :: ts) (hm : matchesFloat t = true) :
    ∃ rest, fscanf_f s = .assigned t rest ∧ tokens rest = ts := by
  obtain ⟨c, cs, rest, hs, hsplit, -, -, hat, htok⟩ := skipSpace_of_tokens_cons h
  cases hrun : frun .start t with
  | none => simp [matchesFloat, hrun] at hm
  | some st =>
      simp only [matchesFloat, hrun] at hm
      refine ⟨skipSpace rest, ?_, by rw [tokens_skipSpace, htok]⟩
      have hscan := scanFloat_append [] hrun hm hat
      simp only [fscanf_f, hs]
      rw [hsplit, hscan]
      simp [hm]

/-- A byte that cannot begin a number is never consumed: the call returns 0
and leaves the stream where it was. -/
theorem fscanf_f_stuck {s : List Nat} {c : Nat} {cs : List Nat}
    (hs : skipSpace s = c :: cs) (hc : fstep .start c = none) :
    fscanf_f s = .nomatch (c :: cs) := by
  simp [fscanf_f, hs, scanFloat, hc, FState.accepting, FState.swallows]

/-! ## The read loop -/

theorem toInt32_add (a b : Int) : toInt32 (toInt32 a + b) = toInt32 (a + b) := by
  unfold toInt32
  omega

theorem toInt32_idem (a : Int) : toInt32 (toInt32 a) = toInt32 a := by
  unfold toInt32
  omega

theorem encodeAll_cons (strtof : List Nat → Float32) (t : List Nat)
    (ts : List (List Nat)) :
    encodeAll strtof (t :: ts) = (strtof t).toBytes ++ encodeAll strtof ts := by
  simp [encodeAll]

theorem encodeAll_length (strtof : List Nat → Float32) (ts : List (List Nat)) :
    (encodeAll strtof ts).length = 4 * ts.length := by
  induction ts with
  | nil => rfl
  | cons t ts ih =>
      rw [encodeAll_cons, List.length_append, ih]
      simp [Float32.toBytes]
      omega

/-- On a stream whose tokens are all numbers the loop ends after one
evaluation of its condition per token and one more, having written one
record per token. -/
theorem loop_of_tokens (strtof : List Nat → Float32) (ts : List (List Nat)) :
    ∀ (s : LoopState) (fuel : Nat), tokens s.fid = ts →
      (∀ t ∈ ts, matchesFloat t = true) → ts.length < fuel →
      ∃ s1, loop strtof fuel s = some s1 ∧
        s1.out = s.out ++ encodeAll strtof ts ∧
        toInt32 s1.i = toInt32 (s.i + ts.length) := by
  induction ts with
  | nil =>
      intro s fuel htok _ hfuel
      obtain ⟨f, rfl⟩ : ∃ f, fuel = f + 1 := ⟨fuel - 1, by simp at hfuel; omega⟩
      refine ⟨s, ?_, by simp [encodeAll], by simp⟩
      simp [loop, fscanf_f_of_tokens_nil htok]
  | cons t ts ih =>
      intro s fuel htok hall hfuel
      obtain ⟨f, rfl⟩ : ∃ f, fuel = f + 1 := ⟨fuel - 1, by simp at hfuel; omega⟩
      obtain ⟨rest, hscan, hrest⟩ :=
        fscanf_f_of_tokens_cons htok (hall t (List.mem_cons_self _ _))
      obtain ⟨s1, hloop, hout, hi⟩ :=
        ih ⟨rest, s.out ++ (strtof t).toBytes, strtof t, toInt32 (s.i + 1)⟩ f hrest
          (fun u hu => hall u (List.mem_cons_of_mem _ hu))
          (by simp at hfuel; omega)
      refine ⟨s1, ?_, ?_, ?_⟩
      · simp only [loop, hscan]
        exact hloop
      · rw [hout, encodeAll_cons]
        simp
      · rw [hi, toInt32_add]
        congr 1
        simp only [List.length_cons]
        push_cast
        ring

/-- Once the next byte that is not white space cannot begin a number, the
condition of the loop never becomes false. -/
theorem loop_stuck (strtof : List Nat → Float32) {c : Nat} {cs : List Nat}
    (hc : fstep .start c = none) :
    ∀ (fuel : Nat) (s : LoopState), skipSpace s.fid = c :: cs →
      loop strtof fuel s = none := by
  intro fuel
  induction fuel with
  | zero => intro s _; rfl
  | succ f ih =>
      intro s hs
      simp only [loop, fscanf_f_stuck hs hc]
      apply ih
      show skipSpace (c :: cs) = c :: cs
      rw [← hs, skipSpace_idem]

/-- The loop never ends when the stream holds numbers and then a token
whose first byte cannot begin a number. -/
theorem loop_diverges (strtof : List Nat → Float32) (good : List (List Nat))
    {b : Nat} {bad : List Nat} {more : List (List Nat)}
    (hb : fstep .start b = none) :
    ∀ (s : LoopState) (fuel : Nat),
      tokens s.fid = good ++ (b :: bad) :: more →
      (∀ t ∈ good, matchesFloat t = true) → loop strtof fuel s = none := by
  induction good with
  | nil =>
      intro s fuel htok _
      obtain ⟨c, cs, rest, hs, hsplit, -, -, -, -⟩ :=
        skipSpace_of_tokens_cons (by simpa using htok)
      have hcb : c = b := by
        simp only [List.cons_append, List.cons.injEq] at hsplit
        exact hsplit.1
      subst hcb
      exact loop_stuck strtof hb fuel s hs
  | cons t ts ih =>
      intro s fuel htok hall
      cases fuel with
      | zero => rfl
      | succ f =>
          obtain ⟨rest, hscan, hrest⟩ :=
            fscanf_f_of_tokens_cons (by simpa using htok)
              (hall t (List.mem_cons_self _ _))
          simp only [loop, hscan]
          exact ih _ f hrest (fun u hu => hall u (List.mem_cons_of_mem _ hu))

/-- Every evaluation of the loop body appends four bytes and adds one to
`i`: whenever the loop ends, `i` is the number of records written, reduced
to an `int`. -/
theorem loop_count (strtof : List Nat → Float32) :
    ∀ (fuel : Nat) (s s1 : LoopState), loop strtof fuel s = some s1 →
      ∃ n : Nat, s1.out.length = s.out.length + 4 * n ∧
        toInt32 s1.i = toInt32 (s.i + n) := by
  intro fuel
  induction fuel with
  | zero => intro s s1 h; simp [loop] at h
  | succ f ih =>
      intro s s1 h
      simp only [loop] at h
      split at h
      · simp only [Option.some.injEq] at h
        subst h
        exact ⟨0, by simp, by simp⟩
      · obtain ⟨n, hlen, hi⟩ := ih _ _ h
        refine ⟨n + 1, ?_, ?_⟩
        · rw [hlen]
          simp [Float32.toBytes]
          omega
        · rw [hi, toInt32_add]
          congr 1
          push_cast
          ring
      · obtain ⟨n, hlen, hi⟩ := ih _ _ h
        refine ⟨n + 1, ?_, ?_⟩
        · rw [hlen]
          simp [Float32.toBytes]
          omega
        · rw [hi, toInt32_add]
          congr 1
          push_cast
          ring

/-- The value of `i` is always that of an `int`. -/
theorem loop_i_range (strtof : List Nat → Float32) :
    ∀ (fuel : Nat) (s s1 : LoopState), loop strtof fuel s = some s1 →
      toInt32 s.i = s.i → toInt32 s1.i = s1.i := by
  intro fuel
  induction fuel with
  | zero => intro s s1 h; simp [loop] at h
  | succ f ih =>
      intro s s1 h hs
      simp only [loop] at h
      split at h
      · simp only [Option.some.injEq] at h
        subst h
        exact hs
      · exact ih _ _ h (toInt32_idem _)
      · exact ih _ _ h (toInt32_idem _)

/-- More fuel does not change the result of a loop that has ended. -/
theorem loop_mono (strtof : List Nat → Float32) :
    ∀ (fuel : Nat) (s s1 : LoopState), loop strtof fuel s = some s1 →
      ∀ k, loop strtof (fuel + k) s = some s1 := by
  intro fuel
  induction fuel with
  | zero => intro s s1 h; simp [loop] at h
  | succ f ih =>
      intro s s1 h k
      have hk : f + 1 + k = (f + k) + 1 := by omega
      rw [hk]
      simp only [loop] at h ⊢
      split at h
      · next heq => simpa [heq] using h
      · next heq => simpa [heq] using ih _ _ h k
      · next heq => simpa [heq] using ih _ _ h k

/-! ## `main` once both files are open -/

theorem dataAt_flush {fs fs1 : FileSys} {outPath : String}
    (h : fopen_wb fs outPath = some fs1) (data : List Nat) :
    (fs1.flush outPath data).dataAt outPath = data := by
  unfold fopen_wb at h
  split at h
  · split at h
    · simp only [Option.some.injEq] at h
      subst h
      simp [FileSys.flush, FileSys.set, FileSys.dataAt]
    · simp at h
  · split at h
    · simp only [Option.some.injEq] at h
      subst h
      simp [FileSys.flush, FileSys.set, FileSys.dataAt]
    · simp at h

/-- No file other than the output is changed by a run. -/
theorem file_flush_of_ne {fs fs1 : FileSys} {outPath : String}
    (h : fopen_wb fs outPath = some fs1) (data : List Nat) {p : String}
    (hp : p ≠ outPath) : (fs1.flush outPath data).file p = fs.file p := by
  unfold fopen_wb at h
  split at h
  · split at h
    · simp only [Option.some.injEq] at h
      subst h
      simp [FileSys.flush, FileSys.set, hp]
    · simp at h
  · split at h
    · simp only [Option.some.injEq] at h
      subst h
      simp [FileSys.flush, FileSys.set, hp]
    · simp at h

theorem main_of_opens (strtof : List Nat → Float32) (val0 : Float32)
    (fuel : Nat) (prog : String) (extra : List String)
    {fs fs1 : FileSys} {inPath outPath : String} {input : List Nat}
    (h : Opens fs inPath outPath fs1 input) :
    main strtof val0 fuel (prog :: inPath :: outPath :: extra) fs =
      match fscanf_s input with
      | .overflow => some .undefined
      | .eof => readAndReport strtof val0 fuel [] inPath outPath fs1
      | .stored _ rest => readAndReport strtof val0 fuel rest inPath outPath fs1 := by
  obtain ⟨hr, hw, hd⟩ := h
  simp [main, hr, hw, hd]

/-- The run on an input whose first token fits the header buffer and whose
other tokens are all numbers. -/
theorem main_of_tokens (strtof : List Nat → Float32) (val0 : Float32)
    (fuel : Nat) (prog : String) (extra : List String)
    {fs fs1 : FileSys} {inPath outPath : String} {input : List Nat}
    (h : Opens fs inPath outPath fs1 input)
    (hhdr : ∀ hdr ∈ (tokens input).head?, hdr.length < hdrSize)
    (hall : ∀ t ∈ (tokens input).tail, matchesFloat t = true)
    (hfuel : (tokens input).tail.length < fuel) :
    main strtof val0 fuel (prog :: inPath :: outPath :: extra) fs =
      some (.exit 0 (report (toInt32 (tokens input).tail.length) outPath)
        (fs1.flush outPath (encodeAll strtof (tokens input).tail))
        [(inPath, "r"), (outPath, "wb")]) := by
  rw [main_of_opens strtof val0 fuel prog extra h]
  have key : ∀ fid : List Nat, tokens fid = (tokens input).tail →
      readAndReport strtof val0 fuel fid inPath outPath fs1 =
        some (.exit 0 (report (toInt32 (tokens input).tail.length) outPath)
          (fs1.flush outPath (encodeAll strtof (tokens input).tail))
          [(inPath, "r"), (outPath, "wb")]) := by
    intro fid hfid
    obtain ⟨s1, hloop, hout, hi⟩ :=
      loop_of_tokens strtof (tokens input).tail ⟨fid, [], val0, 0⟩ fuel hfid hall hfuel
    have hrange := loop_i_range strtof fuel _ s1 hloop (show toInt32 0 = 0 by decide)
    simp only [readAndReport, hloop]
    simp only [List.nil_append] at hout
    rw [hout, ← hrange, hi]
    simp
  cases htok : tokens input with
  | nil =>
      rw [fscanf_s_of_tokens_nil htok]
      simpa [htok] using key [] (by simp [htok]; rfl)
  | cons hdr ts =>
      obtain ⟨rest, hscan, hrest⟩ :=
        fscanf_s_of_tokens_cons htok (hhdr hdr (by simp [htok]))
      rw [hscan]
      simpa [htok] using key rest (by simp [htok, hrest])

/-- A first token too long for `hdr` takes the run out of defined behaviour. -/
theorem main_overflow (strtof : List Nat → Float32) (val0 : Float32)
    (fuel : Nat) (prog : String) (extra : List String)
    {fs fs1 : FileSys} {inPath outPath : String} {input hdr : List Nat}
    {ts : List (List Nat)}
    (h : Opens fs inPath outPath fs1 input) (htok : tokens input = hdr :: ts)
    (hlen : hdrSize ≤ hdr.length) :
    main strtof val0 fuel (prog :: inPath :: outPath :: extra) fs =
      some .undefined := by
  rw [main_of_opens strtof val0 fuel prog extra h, fscanf_s_overflow htok hlen]

/-- The run never ends when, after the header and some numbers, the input
holds a token whose first byte cannot begin a number. -/
theorem main_diverges (strtof : List Nat → Float32) (val0 : Float32)
    (fuel : Nat) (prog : String) (extra : List String)
    {fs fs1 : FileSys} {inPath outPath : String} {input hdr : List Nat}
    {good : List (List Nat)} {b : Nat} {bad : List Nat} {more : List (List Nat)}
    (h : Opens fs inPath outPath fs1 input)
    (htok : tokens input = hdr :: (good ++ (b :: bad) :: more))
    (hlen : hdr.length < hdrSize)
    (hgood : ∀ t ∈ good, matchesFloat t = true)
    (hb : fstep .start b = none) :
    main strtof val0 fuel (prog :: inPath :: outPath :: extra) fs = none := by
  rw [main_of_opens strtof val0 fuel prog extra h]
  obtain ⟨rest, hscan, hrest⟩ := fscanf_s_of_tokens_cons htok hlen
  rw [hscan]
  simp only [readAndReport]
  rw [loop_diverges strtof good hb ⟨rest, [], val0, 0⟩ fuel hrest hgood]

theorem opens_fsWith (input : List Nat) :
    Opens (fsWith input) "in.csv" "out.bin" (fsWithOut input) input := by
  refine ⟨rfl, rfl, rfl⟩

/-! ## Decimal literals are subject sequences -/

theorem frun_append (st : FState) (a b : List Nat) :
    frun st (a ++ b) = (frun st a).bind (fun s => frun s b) := by
  induction a generalizing st with
  | nil => simp [frun]
  | cons c cs ih =>
      simp only [List.cons_append, frun]
      cases fstep st c <;> simp [ih]

theorem tolower_e {c : Nat} (h : tolower c = 101) : c = 101 ∨ c = 69 := by
  unfold tolower at h
  split at h <;> omega

theorem splitSign_cases (l : List Nat) :
    (∃ cs, l = 45 :: cs ∧ splitSign l = (true, cs)) ∨
    (∃ cs, l = 43 :: cs ∧ splitSign l = (false, cs)) ∨
    ((∀ c cs, l = c :: cs → c ≠ 45 ∧ c ≠ 43) ∧ splitSign l = (false, l)) := by
  cases l with
  | nil => right; right; exact ⟨by simp, rfl⟩
  | cons c cs =>
      by_cases h45 : c = 45
      · subst h45; left; exact ⟨cs, rfl, rfl⟩
      · by_cases h43 : c = 43
        · subst h43; right; left; exact ⟨cs, rfl, rfl⟩
        · right; right
          refine ⟨?_, ?_⟩
          · intro c1 cs1 h
            simp only [List.cons.injEq] at h
            rw [← h.1]
            exact ⟨h45, h43⟩
          · unfold splitSign
            split
            · next heq => simp only [List.cons.injEq] at heq; exact absurd heq.1 h45
            · next heq => simp only [List.cons.injEq] at heq; exact absurd heq.1 h43
            · rfl

theorem frun_digits_int {ds : List Nat} (h : ∀ d ∈ ds, isdigit d = true) :
    frun .int ds = some .int := by
  induction ds with
  | nil => rfl
  | cons d ds ih =>
      have hd := h d (List.mem_cons_self _ _)
      simp only [frun, fstep, hd, if_true]
      exact ih (fun x hx => h x (List.mem_cons_of_mem _ hx))

theorem frun_digits_frac {ds : List Nat} (h : ∀ d ∈ ds, isdigit d = true) :
    frun .frac ds = some .frac := by
  induction ds with
  | nil => rfl
  | cons d ds ih =>
      have hd := h d (List.mem_cons_self _ _)
      simp only [frun, fstep, hd, if_true]
      exact ih (fun x hx => h x (List.mem_cons_of_mem _ hx))

theorem frun_digits_exp {ds : List Nat} (h : ∀ d ∈ ds, isdigit d = true) :
    frun .exp ds = some .exp := by
  induction ds with
  | nil => rfl
  | cons d ds ih =>
      have hd := h d (List.mem_cons_self _ _)
      simp only [frun, fstep, hd, if_true]
      exact ih (fun x hx => h x (List.mem_cons_of_mem _ hx))

/-- After a non-empty run of digits the automaton has seen an integer part. -/
theorem frun_digits_sign {ds : List Nat} (h : ∀ d ∈ ds, isdigit d = true)
    (hne : ds ≠ []) :
    frun .sign ds = some .zero ∨ frun .sign ds = some .int := by
  cases ds with
  | nil => exact absurd rfl hne
  | cons d ds =>
      have hd := h d (List.mem_cons_self _ _)
      have hds : ∀ x ∈ ds, isdigit x = true :=
        fun x hx => h x (List.mem_cons_of_mem _ hx)
      by_cases h0 : d = 48
      · subst h0
        cases ds with
        | nil => left; rfl
        | cons e es =>
            right
            have he := hds e (List.mem_cons_self _ _)
            simp only [frun, fstep, fstepNoSign, he, if_true]
            exact frun_digits_int (fun x hx => hds x (List.mem_cons_of_mem _ hx))
      · right
        simp only [frun, fstep, fstepNoSign, h0, hd, if_true, if_false]
        exact frun_digits_int hds

theorem frun_exponent {r : List Nat} (h : isExponentPart r = true) {st : FState}
    (hst : st = .zero ∨ st = .int ∨ st = .frac) : frun st r = some .exp := by
  cases r with
  | nil => simp [isExponentPart] at h
  | cons c cs =>
      simp only [isExponentPart, Bool.and_eq_true, beq_iff_eq,
        Bool.not_eq_true', List.all_eq_true] at h
      obtain ⟨hc, hne, hdig⟩ := h
      have hstep : fstep st c = some .e := by
        rcases tolower_e hc with h1 | h1 <;> subst h1 <;>
          rcases hst with h2 | h2 | h2 <;> subst h2 <;> rfl
      simp only [frun, hstep]
      have digits_from : ∀ (q : FState) (ds : List Nat),
          (∀ d, isdigit d = true → fstep q d = some .exp) →
          ds.isEmpty = false → (∀ d ∈ ds, isdigit d = true) →
          frun q ds = some .exp := by
        intro q ds hq hds hall
        cases ds with
        | nil => simp at hds
        | cons d ds =>
            simp only [frun, hq d (hall d (List.mem_cons_self _ _))]
            exact frun_digits_exp (fun x hx => hall x (List.mem_cons_of_mem _ hx))
      rcases splitSign_cases cs with ⟨ds, hcs, hsp⟩ | ⟨ds, hcs, hsp⟩ | ⟨hns, hsp⟩
      · rw [hsp] at hne hdig
        subst hcs
        simp only [frun]
        have : fstep .e 45 = some .esign := rfl
        rw [this]
        exact digits_from .esign ds (fun d hd => by simp [fstep, hd]) hne hdig
      · rw [hsp] at hne hdig
        subst hcs
        simp only [frun]
        have : fstep .e 43 = some .esign := rfl
        rw [this]
        exact digits_from .esign ds (fun d hd => by simp [fstep, hd]) hne hdig
      · rw [hsp] at hne hdig
        exact digits_from .e cs (fun d hd => by simp [fstep, hd]) hne hdig

theorem frun_start_of_body {t : List Nat} {st : FState}
    (h : frun .sign (splitSign t).2 = some st) (hacc : st.accepting = true) :
    frun .start t = some st := by
  rcases splitSign_cases t with ⟨cs, ht, hsp⟩ | ⟨cs, ht, hsp⟩ | ⟨hns, hsp⟩
  · rw [hsp] at h
    subst ht
    simpa [frun, fstep] using h
  · rw [hsp] at h
    subst ht
    simpa [frun, fstep] using h
  · rw [hsp] at h
    cases t with
    | nil =>
        simp only [frun, Option.some.injEq] at h
        subst h
        simp [FState.accepting] at hacc
    | cons c cs =>
        obtain ⟨h45, h43⟩ := hns c cs rfl
        simp only [frun, fstep] at h ⊢
        simpa [h45, h43] using h

theorem isdigit_of_mem_takeWhile {l : List Nat} :
    ∀ d ∈ l.takeWhile isdigit, isdigit d = true := by
  intro d hd
  exact (List.mem_takeWhile_imp hd)

/-- After the fraction digits: the end of the literal or an exponent part. -/
theorem frun_tail {r : List Nat} {st : FState}
    (hst : st = .zero ∨ st = .int ∨ st = .frac)
    (h : (r.isEmpty || isExponentPart r) = true) :
    ∃ st1, frun st r = some st1 ∧ st1.accepting = true := by
  cases r with
  | nil =>
      refine ⟨st, rfl, ?_⟩
      rcases hst with h2 | h2 | h2 <;> subst h2 <;> rfl
  | cons c cs =>
      simp only [List.isEmpty_cons, Bool.false_or] at h
      exact ⟨.exp, frun_exponent h hst, rfl⟩

theorem frun_decimalRest {ip r1 : List Nat} (hip : ∀ d ∈ ip, isdigit d = true)
    (h : isDecimalRest ip r1 = true) :
    ∃ st, frun .sign (ip ++ r1) = some st ∧ st.accepting = true := by
  rw [frun_append]
  by_cases h46 : ∃ cs, r1 = 46 :: cs
  · obtain ⟨cs, hr1⟩ := h46
    subst hr1
    simp only [isDecimalRest, Bool.and_eq_true, Bool.or_eq_true,
      Bool.not_eq_true'] at h
    obtain ⟨hdigits, htail⟩ := h
    have hfp : ∀ d ∈ cs.takeWhile isdigit, isdigit d = true :=
      isdigit_of_mem_takeWhile
    have hcs : cs = cs.takeWhile isdigit ++ cs.dropWhile isdigit :=
      (List.takeWhile_append_dropWhile _ _).symm
    have htail1 : ((cs.dropWhile isdigit).isEmpty ||
        isExponentPart (cs.dropWhile isdigit)) = true := by
      simpa [Bool.or_eq_true] using htail
    obtain ⟨st1, hrun1, hacc1⟩ :=
      @frun_tail _ FState.frac (Or.inr (Or.inr rfl)) htail1
    refine ⟨st1, ?_, hacc1⟩
    by_cases hipe : ip = []
    · subst hipe
      have hfpne : (cs.takeWhile isdigit).isEmpty = false := by
        rcases hdigits with h1 | h1
        · simp at h1
        · exact h1
      rw [hcs]
      generalize cs.takeWhile isdigit = fp at hfp hfpne
      cases fp with
      | nil => simp at hfpne
      | cons d fp =>
          have hd := hfp d (List.mem_cons_self _ _)
          have h1 : fstep .sign 46 = some .dot0 := rfl
          have h2 : fstep .dot0 d = some .frac := by simp [fstep, hd]
          simp only [frun, Option.bind, h1, List.cons_append, h2]
          show frun .frac (fp ++ cs.dropWhile isdigit) = some st1
          rw [frun_append,
            frun_digits_frac (fun x hx => hfp x (List.mem_cons_of_mem _ hx))]
          exact hrun1
    · rcases frun_digits_sign hip hipe with h0 | h0
      · rw [h0]
        have h1 : fstep .zero 46 = some .frac := rfl
        simp only [Option.bind, frun, h1]
        rw [hcs, frun_append, frun_digits_frac hfp]
        exact hrun1
      · rw [h0]
        have h1 : fstep .int 46 = some .frac := rfl
        simp only [Option.bind, frun, h1]
        rw [hcs, frun_append, frun_digits_frac hfp]
        exact hrun1
  · have h2 : (!ip.isEmpty && (r1.isEmpty || isExponentPart r1)) = true := by
      unfold isDecimalRest at h
      split at h
      · next cs => exact absurd ⟨cs, rfl⟩ h46
      · exact h
    simp only [Bool.and_eq_true, Bool.not_eq_true'] at h2
    obtain ⟨hipe, htail⟩ := h2
    have hipne : ip ≠ [] := by
      intro hnil
      simp [hnil] at hipe
    rcases frun_digits_sign hip hipne with h0 | h0
    · rw [h0]
      exact frun_tail (Or.inl rfl) htail
    · rw [h0]
      exact frun_tail (Or.inr (Or.inl rfl)) htail

/-- The automaton of `%f` accepts every decimal numeric literal. -/
theorem matchesFloat_of_decimal {t : List Nat} (h : isDecimalLiteral t = true) :
    matchesFloat t = true := by
  have key : ∃ st, frun .sign (splitSign t).2 = some st ∧ st.accepting = true := by
    have := frun_decimalRest isdigit_of_mem_takeWhile h
    rwa [List.takeWhile_append_dropWhile] at this
  obtain ⟨st, hrun, hacc⟩ := key
  simp [matchesFloat, frun_start_of_body hrun hacc, hacc]

/-! ## Lines and tokens -/

theorem frun_spacefree {t : List Nat} :
    ∀ {st st1 : FState}, frun st t = some st1 → ∀ c ∈ t, isspace c = false := by
  induction t with
  | nil => intro _ _ _ c hc; simp at hc
  | cons d ds ih =>
      intro st st1 h c hc
      simp only [frun] at h
      cases hd : fstep st d with
      | none => simp [hd] at h
      | some st2 =>
          simp only [hd] at h
          rcases List.mem_cons.mp hc with h1 | h1
          · subst h1
            cases hsp : isspace c with
            | false => rfl
            | true => rw [fstep_space st hsp] at hd; simp at hd
          · exact ih h c h1

theorem matchesFloat_spacefree {t : List Nat} (h : matchesFloat t = true) :
    ∀ c ∈ t, isspace c = false := by
  cases hrun : frun .start t with
  | none => simp [matchesFloat, hrun] at h
  | some st => exact frun_spacefree hrun

theorem matchesFloat_ne_nil {t : List Nat} (h : matchesFloat t = true) : t ≠ [] := by
  intro ht
  subst ht
  simp [matchesFloat, frun, FState.accepting] at h

/-- A line holding a decimal literal is not empty and has no white space. -/
theorem decimal_line {t : List Nat} (h : isDecimalLiteral t = true) :
    t ≠ [] ∧ ∀ c ∈ t, isspace c = false :=
  ⟨matchesFloat_ne_nil (matchesFloat_of_decimal h),
    matchesFloat_spacefree (matchesFloat_of_decimal h)⟩

theorem skipSpace_append_of_ne {l : List Nat} (x : List Nat) (h : skipSpace l ≠ []) :
    skipSpace (l ++ x) = skipSpace l ++ x := by
  induction l with
  | nil => simp [skipSpace] at h
  | cons c cs ih =>
      by_cases hc : isspace c = true
      · have h1 : skipSpace (c :: cs) = skipSpace cs := by
          simp [skipSpace, List.dropWhile_cons, hc]
        have h2 : skipSpace (c :: cs ++ x) = skipSpace (cs ++ x) := by
          simp [skipSpace, List.dropWhile_cons, hc]
        rw [h1] at h ⊢
        rw [h2, ih h]
      · have hc1 : isspace c = false := by simpa using hc
        rw [skipSpace_cons_of_not cs hc1]
        exact skipSpace_cons_of_not (cs ++ x) hc1

theorem skipSpace_append_of_nil {l : List Nat} (x : List Nat) (h : skipSpace l = []) :
    skipSpace (l ++ x) = skipSpace x := by
  induction l with
  | nil => rfl
  | cons c cs ih =>
      by_cases hc : isspace c = true
      · have h1 : skipSpace (c :: cs) = skipSpace cs := by
          simp [skipSpace, List.dropWhile_cons, hc]
        have h2 : skipSpace (c :: cs ++ x) = skipSpace (cs ++ x) := by
          simp [skipSpace, List.dropWhile_cons, hc]
        rw [h1] at h
        rw [h2, ih h]
      · have hc1 : isspace c = false := by simpa using hc
        rw [skipSpace_cons_of_not cs hc1] at h
        simp at h

theorem skipSpace_nil_of_all {l : List Nat} (h : ∀ c ∈ l, isspace c = true) :
    skipSpace l = [] := by
  induction l with
  | nil => rfl
  | cons c cs ih =>
      have hc := h c (List.mem_cons_self _ _)
      have h1 : skipSpace (c :: cs) = skipSpace cs := by
        simp [skipSpace, List.dropWhile_cons, hc]
      rw [h1]
      exact ih (fun x hx => h x (List.mem_cons_of_mem _ hx))

theorem skipSpace_newline (x : List Nat) : skipSpace (10 :: x) = skipSpace x := by
  simp [skipSpace, List.dropWhile_cons, isspace]

/-- A token followed by white space is the first token of the text. -/
theorem tokens_token_append {t : List Nat} (rest : List Nat) (hne : t ≠ [])
    (hsf : ∀ c ∈ t, isspace c = false) (hrest : AtSpace rest) :
    tokens (t ++ rest) = t :: tokens rest := by
  cases t with
  | nil => exact absurd rfl hne
  | cons c cs =>
      have hc := hsf c (List.mem_cons_self _ _)
      have hs : skipSpace (c :: cs ++ rest) = c :: (cs ++ rest) :=
        skipSpace_cons_of_not _ hc
      have hall : ∀ a ∈ c :: cs, (fun b => !isspace b) a = true := by
        intro a ha
        simp [hsf a ha]
      have hnil : rest.takeWhile (fun b => !isspace b) = [] := by
        rcases hrest with h | ⟨d, ds, h, hd⟩
        · subst h; rfl
        · subst h; simp [List.takeWhile_cons, hd]
      have hdrop : rest.dropWhile (fun b => !isspace b) = rest := by
        rcases hrest with h | ⟨d, ds, h, hd⟩
        · subst h; rfl
        · subst h; simp [List.dropWhile_cons, hd]
      rw [tokens_of_skipSpace_cons hs]
      have e1 : c :: (cs ++ rest) = (c :: cs) ++ rest := rfl
      rw [e1, List.takeWhile_append_of_pos hall, List.dropWhile_append_of_pos hall,
        hnil, hdrop]
      simp

theorem tokens_newline (x : List Nat) : tokens (10 :: x) = tokens x := by
  rw [← tokens_skipSpace, skipSpace_newline, tokens_skipSpace]

/-- The tokens of a text that begins with lines holding one token each. -/
theorem tokens_unlines_append {ls : List (List Nat)} (rest : List Nat)
    (h : ∀ l ∈ ls, l ≠ [] ∧ ∀ c ∈ l, isspace c = false) :
    tokens (unlines ls ++ rest) = ls ++ tokens rest := by
  induction ls with
  | nil => simp [unlines]
  | cons l ls ih =>
      obtain ⟨hne, hsf⟩ := h l (List.mem_cons_self _ _)
      have e : unlines (l :: ls) ++ rest = l ++ (10 :: (unlines ls ++ rest)) := by
        simp [unlines]
      rw [e, tokens_token_append _ hne hsf (Or.inr ⟨10, _, rfl, rfl⟩), tokens_newline,
        ih (fun x hx => h x (List.mem_cons_of_mem _ hx))]
      simp

theorem tokens_unlines {ls : List (List Nat)}
    (h : ∀ l ∈ ls, l ≠ [] ∧ ∀ c ∈ l, isspace c = false) :
    tokens (unlines ls) = ls := by
  have := tokens_unlines_append [] h
  simpa [tokens, tokensAux] using this

/-- The first token of a text that starts with a byte other than white
space starts with that byte. -/
theorem tokens_cons_head {b : Nat} (x : List Nat) (hb : isspace b = false) :
    ∃ bad more, tokens (b :: x) = (b :: bad) :: more := by
  rw [tokens_of_skipSpace_cons (skipSpace_cons_of_not x hb)]
  refine ⟨x.takeWhile (fun b => !isspace b),
    tokens ((b :: x).dropWhile (fun b => !isspace b)), ?_⟩
  simp [List.takeWhile_cons, hb]

/-! ## Runs that differ in layout only -/

theorem fscanf_f_congr {a b : List Nat} (h : skipSpace a = skipSpace b) :
    fscanf_f a = fscanf_f b := by
  simp [fscanf_f, h]

/-- Leading white space of the stream does not change what the loop
writes and counts. -/
theorem loop_congr (strtof : List Nat → Float32) (fuel : Nat) {a b : List Nat}
    (out : List Nat) (val : Float32) (i : Int) (h : skipSpace a = skipSpace b) :
    (loop strtof fuel ⟨a, out, val, i⟩).map (fun s => (s.out, s.i)) =
      (loop strtof fuel ⟨b, out, val, i⟩).map (fun s => (s.out, s.i)) := by
  cases fuel with
  | zero => rfl
  | succ f =>
      simp only [loop]
      rw [fscanf_f_congr h]
      cases fscanf_f b <;> rfl

theorem readAndReport_congr (strtof : List Nat → Float32) (val0 : Float32)
    (fuel : Nat) {a b : List Nat} {inPath outPath : String}
    {fsA fsB fs1A fs1B : FileSys} (hA : fopen_wb fsA outPath = some fs1A)
    (hB : fopen_wb fsB outPath = some fs1B) (h : skipSpace a = skipSpace b) :
    (readAndReport strtof val0 fuel a inPath outPath fs1A).map
        (Outcome.observe outPath) =
      (readAndReport strtof val0 fuel b inPath outPath fs1B).map
        (Outcome.observe outPath) := by
  have hl := loop_congr strtof fuel [] val0 0 h
  simp only [readAndReport]
  cases ha : loop strtof fuel ⟨a, [], val0, 0⟩ with
  | none =>
      cases hb : loop strtof fuel ⟨b, [], val0, 0⟩ with
      | none => rfl
      | some sb => simp [ha, hb] at hl
  | some sa =>
      cases hb : loop strtof fuel ⟨b, [], val0, 0⟩ with
      | none => simp [ha, hb] at hl
      | some sb =>
          simp only [ha, hb, Option.map_some', Option.some.injEq, Prod.mk.injEq] at hl
          simp [Outcome.observe, dataAt_flush hA, dataAt_flush hB, hl.1, hl.2]

theorem readAndReport_of_tokens (strtof : List Nat → Float32) (val0 : Float32)
    {fuel : Nat} {fid : List Nat} (inPath outPath : String) (fs1 : FileSys)
    (hall : ∀ t ∈ tokens fid, matchesFloat t = true)
    (hfuel : (tokens fid).length < fuel) :
    readAndReport strtof val0 fuel fid inPath outPath fs1 =
      some (.exit 0 (report (toInt32 (tokens fid).length) outPath)
        (fs1.flush outPath (encodeAll strtof (tokens fid)))
        [(inPath, "r"), (outPath, "wb")]) := by
  obtain ⟨s1, hloop, hout, hi⟩ :=
    loop_of_tokens strtof (tokens fid) ⟨fid, [], val0, 0⟩ fuel rfl hall hfuel
  have hrange := loop_i_range strtof fuel _ s1 hloop (show toInt32 0 = 0 by decide)
  simp only [readAndReport, hloop]
  simp only [List.nil_append] at hout
  rw [hout, ← hrange, hi]
  simp

/-- Reading the header off a first line that holds exactly one token. -/
theorem fscanf_s_first_line {line hdr : List Nat} (body : List Nat)
    (htok : tokens line = [hdr]) (hlen : hdr.length < hdrSize) :
    ∃ rest, fscanf_s (line ++ 10 :: body) = .stored hdr rest ∧
      skipSpace rest = skipSpace body := by
  obtain ⟨c, cs, r, hs, hsplit, ht, hr, hat, hnil⟩ := skipSpace_of_tokens_cons htok
  have hne : skipSpace line ≠ [] := by rw [hs]; simp
  have hs2 : skipSpace (line ++ 10 :: body) = hdr ++ (r ++ 10 :: body) := by
    rw [skipSpace_append_of_ne _ hne, hs, hsplit, List.append_assoc]
  have hall : ∀ a ∈ hdr, (fun b => !isspace b) a = true := by
    intro a ha
    rw [ht] at ha
    exact List.mem_takeWhile_imp (p := fun b => !isspace b) ha
  have hat2 : AtSpace (r ++ 10 :: body) := by
    rcases hat with h | ⟨d, ds, h, hd⟩
    · subst h; exact Or.inr ⟨10, body, rfl, rfl⟩
    · subst h; exact Or.inr ⟨d, ds ++ 10 :: body, rfl, hd⟩
  have htake : (r ++ 10 :: body).takeWhile (fun b => !isspace b) = [] := by
    rcases hat2 with h | ⟨d, ds, h, hd⟩
    · rw [h]; rfl
    · rw [h]; simp [List.takeWhile_cons, hd]
  have hdrop : (r ++ 10 :: body).dropWhile (fun b => !isspace b) = r ++ 10 :: body := by
    rcases hat2 with h | ⟨d, ds, h, hd⟩
    · rw [h]; rfl
    · rw [h]; simp [List.dropWhile_cons, hd]
  have hhdr : hdr ≠ [] := by
    rw [ht]
    simp [List.takeWhile_cons, skipSpace_head hs]
  refine ⟨r ++ 10 :: body, ?_, ?_⟩
  · cases hh : hdr with
    | nil => exact absurd hh hhdr
    | cons x xs =>
        have hs3 : skipSpace (line ++ 10 :: body) = x :: (xs ++ (r ++ 10 :: body)) := by
          rw [hs2, hh]; rfl
        have hall2 : ∀ a ∈ x :: xs, (fun b => !isspace b) a = true := by
          rw [← hh]; exact hall
        have e1 : x :: (xs ++ (r ++ 10 :: body)) = (x :: xs) ++ (r ++ 10 :: body) := rfl
        have hlen2 : (x :: xs).length + 1 ≤ hdrSize := by
          rw [← hh]; omega
        simp only [fscanf_s, hs3]
        rw [e1, List.takeWhile_append_of_pos hall2, List.dropWhile_append_of_pos hall2,
          htake, hdrop, List.append_nil, if_pos hlen2]
  · rw [skipSpace_append_of_nil _ (skipSpace_of_tokens_nil hnil), skipSpace_newline]

/-! ## Argument and open errors -/

/-- C7 (usage error).  With fewer than two path arguments (`argc < 3`)
`main` returns exit status 1 and leaves the file system as it was, without a
single `fopen` call, whatever the arguments name. -/
theorem usage_error_touches_nothing (strtof : List Nat → Float32)
    (val0 : Float32) (fuel : Nat) (argv : List String) (fs : FileSys)
    (h : argv.length < 3) :
    ∃ msg, main strtof val0 fuel argv fs = some (.exit 1 msg fs []) := by
  exact ⟨"Usage: csv2bin INPUT OUTPUT\n", by simp [main, h]⟩

theorem usage_error_touches_nothing_witness :
    ["csv2bin", "in.csv"].length < 3 ∧
      ∃ msg, main strtofIEEE ⟨0, 0, 0, 0⟩ 10 ["csv2bin", "in.csv"]
        (fsWith (bytes "value\n1.5\n")) =
          some (.exit 1 msg (fsWith (bytes "value\n1.5\n")) []) :=
  ⟨by decide, usage_error_touches_nothing strtofIEEE ⟨0, 0, 0, 0⟩ 10
    ["csv2bin", "in.csv"] (fsWith (bytes "value\n1.5\n")) (by decide)⟩

/-- C8 (missing input).  With at least two path arguments and an input path
that cannot be opened for reading, `main` prints
`Error: <input-path> could not be open`, returns exit status 1 and leaves the
file system as it was: the only `fopen` call is the failed one on the input,
so the output file is neither created nor truncated. -/
theorem missing_input_error (strtof : List Nat → Float32) (val0 : Float32)
    (fuel : Nat) (prog inPath outPath : String) (extra : List String)
    (fs : FileSys) (h : fopen_r fs inPath = false) :
    main strtof val0 fuel (prog :: inPath :: outPath :: extra) fs =
      some (.exit 1 ("Error: " ++ inPath ++ " could not be open\n") fs
        [(inPath, "r")]) := by
  simp [main, h]

theorem missing_input_error_witness :
    fopen_r (fsWith (bytes "value\n1.5\n")) "nope.csv" = false ∧
      main strtofIEEE ⟨0, 0, 0, 0⟩ 10 ["csv2bin", "nope.csv", "in.csv"]
        (fsWith (bytes "value\n1.5\n")) =
          some (.exit 1 "Error: nope.csv could not be open\n"
            (fsWith (bytes "value\n1.5\n")) [("nope.csv", "r")]) :=
  ⟨by decide, missing_input_error strtofIEEE ⟨0, 0, 0, 0⟩ 10 "csv2bin" "nope.csv"
    "in.csv" [] (fsWith (bytes "value\n1.5\n")) (by decide)⟩

/-- C9 (usage message), as amended.  With fewer than two path arguments the
console output of `main` is exactly the line `Usage: csv2bin INPUT OUTPUT`. -/
theorem usage_message_text (strtof : List Nat → Float32) (val0 : Float32)
    (fuel : Nat) (argv : List String) (fs : FileSys) (h : argv.length < 3) :
    (main strtof val0 fuel argv fs).map Outcome.stdout? =
      some (some "Usage: csv2bin INPUT OUTPUT\n") := by
  simp [main, h, Outcome.stdout?]

theorem usage_message_text_witness :
    ["csv2bin"].length < 3 ∧
      (main strtofIEEE ⟨0, 0, 0, 0⟩ 10 ["csv2bin"] (fsWith [])).map Outcome.stdout? =
        some (some "Usage: csv2bin INPUT OUTPUT\n") :=
  ⟨by decide, usage_message_text strtofIEEE ⟨0, 0, 0, 0⟩ 10 ["csv2bin"] (fsWith [])
    (by decide)⟩

/-- C9 as stated fails: run without arguments, the program does not print
`Usage: convert INPUT OUTPUT`. -/
theorem usage_message_is_not_convert :
    (main strtofIEEE ⟨0, 0, 0, 0⟩ 10 ["csv2bin"] (fsWith [])).map Outcome.stdout? ≠
      some (some "Usage: convert INPUT OUTPUT\n") := by
  decide

/-! ## Well-formed input -/

theorem encodeAll_record (strtof : List Nat → Float32) :
    ∀ (lits : List (List Nat)) (i : Nat) (hi : i < lits.length),
      ((encodeAll strtof lits).drop (4 * i)).take 4 =
        (strtof (lits.get ⟨i, hi⟩)).toBytes := by
  intro lits
  induction lits with
  | nil => intro i hi; simp at hi
  | cons t ts ih =>
      intro i hi
      rw [encodeAll_cons]
      cases i with
      | zero =>
          simp [Float32.toBytes]
      | succ j =>
          have hj : j < ts.length := by simpa using hi
          have e : 4 * (j + 1) = (strtof t).toBytes.length + 4 * j := by
            simp [Float32.toBytes]; omega
          rw [e, List.drop_append]
          simpa using ih j hj

theorem header_line {hdr : List Nat} {lits : List (List Nat)} (hne : hdr ≠ [])
    (hsf : ∀ c ∈ hdr, isspace c = false)
    (hlits : ∀ t ∈ lits, isDecimalLiteral t = true) :
    tokens (unlines (hdr :: lits)) = hdr :: lits := by
  apply tokens_unlines
  intro l hl
  rcases List.mem_cons.mp hl with h | h
  · subst h; exact ⟨hne, hsf⟩
  · exact decimal_line (hlits l h)

/-- Round trip when the header fits `hdr` and both files open.  For every
header line holding a single token without white space of at most 255
bytes, followed by `N` lines each holding one decimal numeric literal,
`main` returns exit status 0, reports `N` values, and the output file holds
exactly `4 * N` bytes: the four-byte encodings of the `N` values in input
order, record `i` being the encoding of the `i`-th value after the header. -/
theorem round_trip_on_well_formed_input (strtof : List Nat → Float32)
    (val0 : Float32) (prog : String) (extra : List String)
    {fs fs1 : FileSys} {inPath outPath : String} {hdr : List Nat}
    {lits : List (List Nat)}
    (hopen : Opens fs inPath outPath fs1 (unlines (hdr :: lits)))
    (hne : hdr ≠ []) (hsf : ∀ c ∈ hdr, isspace c = false)
    (hlen : hdr.length ≤ 255)
    (hlits : ∀ t ∈ lits, isDecimalLiteral t = true)
    (fuel : Nat) (hfuel : lits.length < fuel) :
    main strtof val0 fuel (prog :: inPath :: outPath :: extra) fs =
        some (.exit 0 (report (toInt32 lits.length) outPath)
          (fs1.flush outPath (encodeAll strtof lits))
          [(inPath, "r"), (outPath, "wb")]) ∧
      (fs1.flush outPath (encodeAll strtof lits)).dataAt outPath =
        encodeAll strtof lits ∧
      (encodeAll strtof lits).length = 4 * lits.length ∧
      ∀ (i : Nat) (hi : i < lits.length),
        ((encodeAll strtof lits).drop (4 * i)).take 4 =
          (strtof (lits.get ⟨i, hi⟩)).toBytes := by
  have htok := header_line hne hsf hlits
  have hmain := main_of_tokens strtof val0 fuel prog extra hopen
    (by rw [htok]; intro h hh; simp at hh; subst hh; simp [hdrSize]; omega)
    (by rw [htok]; intro t ht; exact matchesFloat_of_decimal (hlits t ht))
    (by rw [htok]; exact hfuel)
  rw [htok] at hmain
  exact ⟨hmain, dataAt_flush hopen.2.1 _, encodeAll_length strtof lits,
    encodeAll_record strtof lits⟩

theorem round_trip_example :
    main strtofIEEE ⟨0, 0, 0, 0⟩ 4 argvEx (fsWith (bytes "value\n1.5\n2.25\n-3\n")) =
        some (.exit 0 "Wrote 3 values to out.bin (12 bytes)\n"
          ((fsWithOut (bytes "value\n1.5\n2.25\n-3\n")).flush "out.bin"
            [0, 0, 192, 63, 0, 0, 16, 64, 0, 0, 64, 192])
          [("in.csv", "r"), ("out.bin", "wb")]) ∧
      decodeAll [0, 0, 192, 63, 0, 0, 16, 64, 0, 0, 64, 192] =
        [some (3, -1), some (9, -2), some (-3, 0)] :=
  ⟨(@round_trip_on_well_formed_input strtofIEEE ⟨0, 0, 0, 0⟩ "csv2bin" [] _ _ _ _
      (bytes "value") [bytes "1.5", bytes "2.25", bytes "-3"]
      (opens_fsWith _) (by decide) (by decide) (by decide) (by decide) 4
      (by decide)).1,
    by decide⟩

theorem long_token_spacefree (n : Nat) :
    ∀ c ∈ List.replicate n 97, isspace c = false := by
  intro c hc
  rw [List.eq_of_mem_replicate hc]
  rfl

/-- The tokens of a text whose header line is `n` letters `a`. -/
theorem long_header_tokens (n : Nat) (hn : 0 < n) (ls : List (List Nat))
    (h : ∀ l ∈ ls, l ≠ [] ∧ ∀ c ∈ l, isspace c = false) :
    tokens (unlines (List.replicate n 97 :: ls)) = List.replicate n 97 :: ls := by
  apply tokens_unlines
  intro l hl
  rcases List.mem_cons.mp hl with h1 | h1
  · subst h1
    refine ⟨?_, long_token_spacefree n⟩
    intro h0
    have := congrArg List.length h0
    rw [List.length_replicate] at this
    simp at this
    omega
  · exact h l h1

/-- C3 (round trip) does not hold of the code when the header is long.  The
input made of a header line of 1048576 letters `a`, a single token without
white space, and of the line `1.5` is well formed, but `main` does not
return with exit status 0 and four bytes of output: `fscanf(fid, "%s", hdr)`
has no field width and stores the token past the end of `char hdr[256]`. -/
theorem header_store_overruns_hdr (strtof : List Nat → Float32)
    (val0 : Float32) (fuel : Nat) :
    main strtof val0 fuel argvEx
        (fsWith (unlines [List.replicate 1048576 97, bytes "1.5"])) =
      some .undefined :=
  main_overflow strtof val0 fuel "csv2bin" [] (opens_fsWith _)
    (long_header_tokens 1048576 (by decide) [bytes "1.5"] (by decide))
    (by rw [List.length_replicate]; decide)

/-! ## Empty body -/

theorem report_zero (outPath : String) :
    report 0 outPath = "Wrote 0 values to " ++ outPath ++ " (0 bytes)\n" := by
  simp only [report]
  have h1 : toString (0 : Int) = "0" := by decide
  have h2 : toString (toInt32 (0 * 4)) = "0" := by decide
  have h3 : "Wrote " ++ "0" ++ " values to " = "Wrote 0 values to " := by decide
  have h4 : " (" ++ ("0" ++ " bytes)\n") = " (0 bytes)\n" := by decide
  rw [h1, h2, h3, String.append_assoc, String.append_assoc, h4]

/-- Empty body when both files open.  For every input file that is empty,
contains only white space, or contains only a header line holding a single
token of at most 255 bytes, `main` creates the output file with 0 bytes,
prints `Wrote 0 values to <output-path> (0 bytes)` and returns exit
status 0. -/
theorem empty_body_writes_nothing (strtof : List Nat → Float32)
    (val0 : Float32) (prog : String) (extra : List String)
    {fs fs1 : FileSys} {inPath outPath : String} {input : List Nat}
    (hopen : Opens fs inPath outPath fs1 input)
    (hin : input = [] ∨ (∀ c ∈ input, isspace c = true) ∨
      ∃ hdr, tokens input = [hdr] ∧ hdr.length ≤ 255)
    (fuel : Nat) (hfuel : 0 < fuel) :
    main strtof val0 fuel (prog :: inPath :: outPath :: extra) fs =
        some (.exit 0 ("Wrote 0 values to " ++ outPath ++ " (0 bytes)\n")
          (fs1.flush outPath []) [(inPath, "r"), (outPath, "wb")]) ∧
      (fs1.flush outPath []).dataAt outPath = [] := by
  have htail : (tokens input).tail = [] ∧
      ∀ hdr ∈ (tokens input).head?, hdr.length < hdrSize := by
    rcases hin with h | h | ⟨hdr, h, hl⟩
    · subst h
      exact ⟨rfl, by intro hdr hh; simp [tokens, tokensAux] at hh⟩
    · rw [tokens_of_skipSpace_nil (skipSpace_nil_of_all h)]
      exact ⟨rfl, by intro hdr hh; simp at hh⟩
    · rw [h]
      refine ⟨rfl, ?_⟩
      intro x hx
      simp at hx
      subst hx
      simp [hdrSize]
      omega
  have hmain := main_of_tokens strtof val0 fuel prog extra hopen htail.2
    (by rw [htail.1]; intro t ht; simp at ht) (by rw [htail.1]; exact hfuel)
  rw [htail.1] at hmain
  have h0 : toInt32 (([] : List (List Nat)).length : Int) = 0 := by decide
  rw [h0, report_zero] at hmain
  exact ⟨hmain, dataAt_flush hopen.2.1 _⟩

theorem empty_body_example :
    main strtofIEEE ⟨0, 0, 0, 0⟩ 1 argvEx (fsWith (bytes "value\n")) =
      some (.exit 0 "Wrote 0 values to out.bin (0 bytes)\n"
        ((fsWithOut (bytes "value\n")).flush "out.bin" [])
        [("in.csv", "r"), ("out.bin", "wb")]) :=
  (empty_body_writes_nothing strtofIEEE ⟨0, 0, 0, 0⟩ "csv2bin" []
    (opens_fsWith (bytes "value\n"))
    (Or.inr (Or.inr ⟨bytes "value", by decide, by decide⟩)) 1 (by decide)).1

/-- C6 (empty body) does not hold of the code.  The file `sample 1` contains
only a header line, but `main` skips one token where its comment says
`header row`: the second word of the line is parsed as data, one record is
written and the count reported is 1. -/
theorem header_line_parsed_as_data :
    main strtofIEEE ⟨0, 0, 0, 0⟩ 5 argvEx (fsWith (bytes "sample 1\n")) =
      some (.exit 0 "Wrote 1 values to out.bin (4 bytes)\n"
        ((fsWithOut (bytes "sample 1\n")).flush "out.bin" [0, 0, 128, 63])
        [("in.csv", "r"), ("out.bin", "wb")]) := by
  rfl

/-! ## Layout -/

/-- Layout independence when the header fits `hdr` and both files open.  Two
input files with the same sequence of white-space-delimited tokens, the
first a header of at most 255 bytes and every later one a number that `%f`
converts whole, give the same report and the same output file: one record
per numeric token, whatever the line structure. -/
theorem layout_independence (strtof : List Nat → Float32) (val0 : Float32)
    (prog : String) (extra : List String)
    {fsA fsB fs1A fs1B : FileSys} {inPath outPath : String}
    {inputA inputB hdr : List Nat} {lits : List (List Nat)}
    (hA : Opens fsA inPath outPath fs1A inputA)
    (hB : Opens fsB inPath outPath fs1B inputB)
    (htokA : tokens inputA = hdr :: lits) (htokB : tokens inputB = hdr :: lits)
    (hlen : hdr.length ≤ 255)
    (hlits : ∀ t ∈ lits, matchesFloat t = true)
    (fuel : Nat) (hfuel : lits.length < fuel) :
    main strtof val0 fuel (prog :: inPath :: outPath :: extra) fsA =
        some (.exit 0 (report (toInt32 lits.length) outPath)
          (fs1A.flush outPath (encodeAll strtof lits))
          [(inPath, "r"), (outPath, "wb")]) ∧
      main strtof val0 fuel (prog :: inPath :: outPath :: extra) fsB =
        some (.exit 0 (report (toInt32 lits.length) outPath)
          (fs1B.flush outPath (encodeAll strtof lits))
          [(inPath, "r"), (outPath, "wb")]) ∧
      (fs1A.flush outPath (encodeAll strtof lits)).dataAt outPath =
        encodeAll strtof lits ∧
      (fs1B.flush outPath (encodeAll strtof lits)).dataAt outPath =
        encodeAll strtof lits ∧
      (encodeAll strtof lits).length = 4 * lits.length := by
  have run : ∀ {fs fs1 : FileSys} {input : List Nat},
      Opens fs inPath outPath fs1 input → tokens input = hdr :: lits →
      main strtof val0 fuel (prog :: inPath :: outPath :: extra) fs =
        some (.exit 0 (report (toInt32 lits.length) outPath)
          (fs1.flush outPath (encodeAll strtof lits))
          [(inPath, "r"), (outPath, "wb")]) := by
    intro fs fs1 input hopen htok
    have hmain := main_of_tokens strtof val0 fuel prog extra hopen
      (by rw [htok]; intro h hh; simp at hh; subst hh; simp [hdrSize]; omega)
      (by rw [htok]; intro t ht; exact hlits t ht)
      (by rw [htok]; exact hfuel)
    rw [htok] at hmain
    exact hmain
  exact ⟨run hA htokA, run hB htokB, dataAt_flush hA.2.1 _, dataAt_flush hB.2.1 _,
    encodeAll_length strtof lits⟩

theorem layout_independence_example :
    main strtofIEEE ⟨0, 0, 0, 0⟩ 4 argvEx (fsWith (bytes "value\n1.5\n2.25\n-3\n")) =
        some (.exit 0 "Wrote 3 values to out.bin (12 bytes)\n"
          ((fsWithOut (bytes "value\n1.5\n2.25\n-3\n")).flush "out.bin"
            [0, 0, 192, 63, 0, 0, 16, 64, 0, 0, 64, 192])
          [("in.csv", "r"), ("out.bin", "wb")]) ∧
      main strtofIEEE ⟨0, 0, 0, 0⟩ 4 argvEx
          (fsWith (bytes "\n  value 1.5\t2.25 \n\n\n-3")) =
        some (.exit 0 "Wrote 3 values to out.bin (12 bytes)\n"
          ((fsWithOut (bytes "\n  value 1.5\t2.25 \n\n\n-3")).flush "out.bin"
            [0, 0, 192, 63, 0, 0, 16, 64, 0, 0, 64, 192])
          [("in.csv", "r"), ("out.bin", "wb")]) :=
  have h := @layout_independence strtofIEEE ⟨0, 0, 0, 0⟩ "csv2bin" [] _ _ _ _ _ _
    _ _ (bytes "value") [bytes "1.5", bytes "2.25", bytes "-3"]
    (opens_fsWith (bytes "value\n1.5\n2.25\n-3\n"))
    (opens_fsWith (bytes "\n  value 1.5\t2.25 \n\n\n-3"))
    (by decide) (by decide) (by decide) (by decide) 4 (by decide)
  ⟨h.1, h.2.1⟩

/-- C10 (layout independence) does not hold of the code when the header is
long.  The two files have the same tokens, a header of 1048576 letters `a`
and the numeric literal `1.5`, in different layouts; on neither does `main`
report a count or write the one record that the one numeric token calls
for, because the header is stored past the end of `char hdr[256]`. -/
theorem long_header_in_any_layout (strtof : List Nat → Float32)
    (val0 : Float32) (fuel : Nat) :
    tokens (unlines [List.replicate 1048576 97, bytes "1.5"]) =
        tokens (unlines [List.replicate 1048576 97] ++ bytes " \n 1.5") ∧
      main strtof val0 fuel argvEx
          (fsWith (unlines [List.replicate 1048576 97, bytes "1.5"])) =
        some .undefined ∧
      main strtof val0 fuel argvEx
          (fsWith (unlines [List.replicate 1048576 97] ++ bytes " \n 1.5")) =
        some .undefined := by
  have htA := long_header_tokens 1048576 (by decide) [bytes "1.5"] (by decide)
  have hone : ∀ l ∈ [List.replicate 1048576 97],
      l ≠ [] ∧ ∀ c ∈ l, isspace c = false := by
    intro l hl
    rw [List.mem_singleton] at hl
    subst hl
    refine ⟨?_, long_token_spacefree 1048576⟩
    intro h0
    have := congrArg List.length h0
    rw [List.length_replicate] at this
    exact absurd this (by decide)
  have htB : tokens (unlines [List.replicate 1048576 97] ++ bytes " \n 1.5") =
      [List.replicate 1048576 97, bytes "1.5"] := by
    rw [tokens_unlines_append _ hone]
    rfl
  have hlen : hdrSize ≤ (List.replicate 1048576 97).length := by
    rw [List.length_replicate]; decide
  exact ⟨by rw [htA, htB],
    main_overflow strtof val0 fuel "csv2bin" [] (opens_fsWith _) htA hlen,
    main_overflow strtof val0 fuel "csv2bin" [] (opens_fsWith _) htB hlen⟩

/-! ## The header -/

/-- The header token does not matter when it fits `hdr` and both files
open.  Two input files whose first lines each hold exactly one token of at
most 255 bytes and whose later lines are the same are treated alike: whenever `main` returns on one of them it returns on
the other, with the same exit status, console output and output file; and
when all tokens of the common lines are numbers, it does return on both,
with one record per token of those lines.  The header is the first
white-space-delimited token, not the first line. -/
theorem header_token_does_not_matter (strtof : List Nat → Float32)
    (val0 : Float32) (prog : String) (extra : List String)
    {fsA fsB fs1A fs1B : FileSys} {inPath outPath : String}
    {lineA lineB hdrA hdrB body : List Nat}
    (hA : Opens fsA inPath outPath fs1A (lineA ++ 10 :: body))
    (hB : Opens fsB inPath outPath fs1B (lineB ++ 10 :: body))
    (htokA : tokens lineA = [hdrA]) (htokB : tokens lineB = [hdrB])
    (hlenA : hdrA.length ≤ 255) (hlenB : hdrB.length ≤ 255) :
    (∀ fuel,
      (main strtof val0 fuel (prog :: inPath :: outPath :: extra) fsA).map
          (Outcome.observe outPath) =
        (main strtof val0 fuel (prog :: inPath :: outPath :: extra) fsB).map
          (Outcome.observe outPath)) ∧
      ((∀ t ∈ tokens body, matchesFloat t = true) →
        ∀ fuel, (tokens body).length < fuel →
          (main strtof val0 fuel (prog :: inPath :: outPath :: extra) fsA).map
              (Outcome.observe outPath) =
            some (some (0, report (toInt32 (tokens body).length) outPath,
              encodeAll strtof (tokens body)))) := by
  obtain ⟨rA, hsA, hrA⟩ :=
    fscanf_s_first_line body htokA (show hdrA.length < hdrSize by simp [hdrSize]; omega)
  obtain ⟨rB, hsB, hrB⟩ :=
    fscanf_s_first_line body htokB (show hdrB.length < hdrSize by simp [hdrSize]; omega)
  have hmA : ∀ fuel,
      main strtof val0 fuel (prog :: inPath :: outPath :: extra) fsA =
        readAndReport strtof val0 fuel rA inPath outPath fs1A := by
    intro fuel
    rw [main_of_opens strtof val0 fuel prog extra hA, hsA]
  have hmB : ∀ fuel,
      main strtof val0 fuel (prog :: inPath :: outPath :: extra) fsB =
        readAndReport strtof val0 fuel rB inPath outPath fs1B := by
    intro fuel
    rw [main_of_opens strtof val0 fuel prog extra hB, hsB]
  refine ⟨?_, ?_⟩
  · intro fuel
    rw [hmA, hmB]
    exact readAndReport_congr strtof val0 fuel hA.2.1 hB.2.1 (hrA.trans hrB.symm)
  · intro hall fuel hfuel
    have htok : tokens rA = tokens body := by
      rw [← tokens_skipSpace, hrA, tokens_skipSpace]
    rw [hmA, readAndReport_of_tokens strtof val0 inPath outPath fs1A
      (by rw [htok]; exact hall) (by rw [htok]; exact hfuel), htok]
    simp [Outcome.observe, dataAt_flush hA.2.1]

theorem header_token_example :
    (∀ fuel,
      (main strtofIEEE ⟨0, 0, 0, 0⟩ fuel argvEx
          (fsWith (bytes "value\n1.5\n2.5\n"))).map (Outcome.observe "out.bin") =
        (main strtofIEEE ⟨0, 0, 0, 0⟩ fuel argvEx
          (fsWith (bytes "  42 \n1.5\n2.5\n"))).map (Outcome.observe "out.bin")) ∧
      (main strtofIEEE ⟨0, 0, 0, 0⟩ 3 argvEx
          (fsWith (bytes "value\n1.5\n2.5\n"))).map (Outcome.observe "out.bin") =
        some (some (0, "Wrote 2 values to out.bin (8 bytes)\n",
          [0, 0, 192, 63, 0, 0, 32, 64])) :=
  have h := @header_token_does_not_matter strtofIEEE ⟨0, 0, 0, 0⟩ "csv2bin" []
    _ _ _ _ _ _ (bytes "value") (bytes "  42 ") (bytes "value") (bytes "42")
    (bytes "1.5\n2.5\n")
    (opens_fsWith (bytes "value\n1.5\n2.5\n"))
    (opens_fsWith (bytes "  42 \n1.5\n2.5\n"))
    (by decide) (by decide) (by decide) (by decide)
  ⟨h.1, h.2 (by decide) 3 (by decide)⟩

/-- C4 (header skip) does not hold of the code.  The two files differ only in
their first line, `value` in one and empty in the other, but the outputs
differ: where its comment says `header row`, `main` skips one token, and
with the empty first line that token is the first value of the second line,
a line after the first consumed as the header. -/
theorem first_line_is_not_the_header :
    main strtofIEEE ⟨0, 0, 0, 0⟩ 5 argvEx (fsWith (bytes "value\n1.5\n2.5\n")) =
        some (.exit 0 "Wrote 2 values to out.bin (8 bytes)\n"
          ((fsWithOut (bytes "value\n1.5\n2.5\n")).flush "out.bin"
            [0, 0, 192, 63, 0, 0, 32, 64])
          [("in.csv", "r"), ("out.bin", "wb")]) ∧
      main strtofIEEE ⟨0, 0, 0, 0⟩ 5 argvEx (fsWith (bytes "\n1.5\n2.5\n")) =
        some (.exit 0 "Wrote 1 values to out.bin (4 bytes)\n"
          ((fsWithOut (bytes "\n1.5\n2.5\n")).flush "out.bin" [0, 0, 32, 64])
          [("in.csv", "r"), ("out.bin", "wb")]) :=
  ⟨by rfl, by rfl⟩

/-! ## Malformed input -/

/-- C1 (truncation on malformed input) does not hold of the code.  After a
valid header and `K` well-formed numeric lines, a line whose first byte is
not white space and cannot begin a number (such as `abc`) makes the run go
on for ever, whatever follows: `fscanf` returns 0, which is not `EOF`, and
leaves the byte unread, so the loop never ends and no output of exactly `K`
values is ever produced. -/
theorem malformed_line_never_ends (strtof : List Nat → Float32)
    (val0 : Float32) (prog : String) (extra : List String)
    {fs fs1 : FileSys} {inPath outPath : String} {hdr : List Nat}
    {good : List (List Nat)} {b : Nat} {bad : List Nat} {more : List (List Nat)}
    (hopen : Opens fs inPath outPath fs1
      (unlines (hdr :: good) ++ unlines ((b :: bad) :: more)))
    (hne : hdr ≠ []) (hsf : ∀ c ∈ hdr, isspace c = false)
    (hlen : hdr.length ≤ 255)
    (hgood : ∀ t ∈ good, isDecimalLiteral t = true)
    (hspace : isspace b = false) (hb : fstep .start b = none) (fuel : Nat) :
    main strtof val0 fuel (prog :: inPath :: outPath :: extra) fs = none := by
  obtain ⟨bad1, more1, hbad⟩ := tokens_cons_head (bad ++ 10 :: unlines more) hspace
  have hlines : ∀ l ∈ hdr :: good, l ≠ [] ∧ ∀ c ∈ l, isspace c = false := by
    intro l hl
    rcases List.mem_cons.mp hl with h | h
    · subst h; exact ⟨hne, hsf⟩
    · exact decimal_line (hgood l h)
  have htok : tokens (unlines (hdr :: good) ++ unlines ((b :: bad) :: more)) =
      hdr :: (good ++ (b :: bad1) :: more1) := by
    rw [tokens_unlines_append _ hlines]
    have e : unlines ((b :: bad) :: more) = b :: (bad ++ 10 :: unlines more) := by
      simp [unlines]
    rw [e, hbad]
    simp
  exact main_diverges strtof val0 fuel prog extra hopen htok
    (by simp [hdrSize]; omega)
    (fun t ht => matchesFloat_of_decimal (hgood t ht)) hb

theorem malformed_line_example :
    isDecimalLiteral (bytes "1.5") = true ∧ isDecimalLiteral (bytes "2.5") = true ∧
      isDecimalLiteral (bytes "abc") = false ∧
      ∀ fuel, main strtofIEEE ⟨0, 0, 0, 0⟩ fuel argvEx
        (fsWith (bytes "value\n1.5\nabc\n2.5\n")) = none :=
  ⟨by decide, by decide, by decide, fun fuel =>
    @malformed_line_never_ends strtofIEEE ⟨0, 0, 0, 0⟩ "csv2bin" [] _ _ _ _
      (bytes "value") [bytes "1.5"] 97 (bytes "bc") [bytes "2.5"]
      (opens_fsWith (bytes "value\n1.5\nabc\n2.5\n"))
      (by decide) (by decide) (by decide) (by decide) (by decide) (by decide) fuel⟩

/-- C2 (termination) does not hold of the code.  On the openable input file
made of the header line `value` and the line `x`, the read loop of `main`
is still running after any number of iterations: the failure to parse `x`
does not end it, and the close-and-report step is never reached. -/
theorem read_loop_does_not_terminate (strtof : List Nat → Float32)
    (val0 : Float32) (fuel : Nat) :
    main strtof val0 fuel argvEx (fsWith (bytes "value\nx\n")) = none :=
  @main_diverges strtof val0 fuel "csv2bin" [] _ _ _ _ _ (bytes "value") [] 120 []
    [] (opens_fsWith (bytes "value\nx\n"))
    (by decide) (by decide) (by simp) (by decide)

/-! ## The report -/

theorem report_of_count {n : Nat} (h : n < 536870912) (outPath : String) :
    report (toInt32 n) outPath =
      "Wrote " ++ toString n ++ " values to " ++ outPath ++ " (" ++
        toString (4 * n) ++ " bytes)\n" := by
  have h1 : toInt32 (n : Int) = n := by unfold toInt32; omega
  have h2 : toInt32 ((n : Int) * 4) = ((4 * n : Nat) : Int) := by
    unfold toInt32; push_cast; omega
  simp only [report, h1, h2]
  rfl

/-- A run that gets past both `fopen` calls and returns has gone through
the loop and the report. -/
theorem exit_of_opens (strtof : List Nat → Float32) (val0 : Float32)
    (fuel : Nat) (prog : String) (extra : List String)
    {fs fs1 : FileSys} {inPath outPath : String} {input : List Nat}
    (hopen : Opens fs inPath outPath fs1 input)
    {status : Int} {stdout : String} {fs2 : FileSys}
    {opened : List (String × String)}
    (hrun : main strtof val0 fuel (prog :: inPath :: outPath :: extra) fs =
      some (.exit status stdout fs2 opened)) :
    ∃ fid s, loop strtof fuel ⟨fid, [], val0, 0⟩ = some s ∧ status = 0 ∧
      stdout = report s.i outPath ∧ fs2 = fs1.flush outPath s.out := by
  rw [main_of_opens strtof val0 fuel prog extra hopen] at hrun
  have key : ∀ fid, readAndReport strtof val0 fuel fid inPath outPath fs1 =
      some (.exit status stdout fs2 opened) →
      ∃ fid s, loop strtof fuel ⟨fid, [], val0, 0⟩ = some s ∧ status = 0 ∧
        stdout = report s.i outPath ∧ fs2 = fs1.flush outPath s.out := by
    intro fid h
    simp only [readAndReport] at h
    cases hl : loop strtof fuel ⟨fid, [], val0, 0⟩ with
    | none => simp [hl] at h
    | some s =>
        simp only [hl, Option.some.injEq, Outcome.exit.injEq] at h
        exact ⟨fid, s, hl, h.1.symm, h.2.1.symm, h.2.2.1.symm⟩
  cases hs : fscanf_s input with
  | eof => rw [hs] at hrun; exact key _ hrun
  | stored hdr rest => rw [hs] at hrun; exact key _ hrun
  | overflow => rw [hs] at hrun; simp at hrun

/-- C5 (summary message), as amended.  For every run that reaches the
report step with an output file below 2 GiB (fewer than 536870912 values
written), the exit status is 0 and the console output is exactly the line
`Wrote <count> values to <output-path> (<bytes> bytes)` where `<count>` is
the number of 4-byte records in the output file and `<bytes>` is
`4 * count`, the size of that file. -/
theorem report_matches_output (strtof : List Nat → Float32) (val0 : Float32)
    (fuel : Nat) (prog : String) (extra : List String)
    {fs fs1 : FileSys} {inPath outPath : String} {input : List Nat}
    (hopen : Opens fs inPath outPath fs1 input)
    {status : Int} {stdout : String} {fs2 : FileSys}
    {opened : List (String × String)}
    (hrun : main strtof val0 fuel (prog :: inPath :: outPath :: extra) fs =
      some (.exit status stdout fs2 opened))
    (hsize : (fs2.dataAt outPath).length < 2147483648) :
    status = 0 ∧
      ∃ count : Nat, (fs2.dataAt outPath).length = 4 * count ∧
        stdout = "Wrote " ++ toString count ++ " values to " ++ outPath ++ " (" ++
          toString (4 * count) ++ " bytes)\n" := by
  obtain ⟨fid, s, hloop, hst, hout, hfs⟩ :=
    exit_of_opens strtof val0 fuel prog extra hopen hrun
  obtain ⟨n, hlen, hi⟩ := loop_count strtof fuel _ s hloop
  have hrange := loop_i_range strtof fuel _ s hloop (show toInt32 0 = 0 by decide)
  have hdata : fs2.dataAt outPath = s.out := by
    rw [hfs]; exact dataAt_flush hopen.2.1 _
  rw [hdata] at hsize ⊢
  simp only [List.length_nil, Nat.zero_add] at hlen
  have hn : n < 536870912 := by omega
  refine ⟨hst, n, hlen, ?_⟩
  have hsi : s.i = toInt32 n := by
    rw [← hrange, hi]; simp
  rw [hout, hsi, report_of_count hn]

theorem report_example :
    (0 : Int) = 0 ∧
      ∃ count : Nat,
        (((fsWithOut (bytes "value\n1.5\n2.25\n-3\n")).flush "out.bin"
            [0, 0, 192, 63, 0, 0, 16, 64, 0, 0, 64, 192]).dataAt "out.bin").length =
          4 * count ∧
        "Wrote 3 values to out.bin (12 bytes)\n" =
          "Wrote " ++ toString count ++ " values to " ++ "out.bin" ++ " (" ++
            toString (4 * count) ++ " bytes)\n" :=
  @report_matches_output strtofIEEE ⟨0, 0, 0, 0⟩ 4 "csv2bin" [] _ _ _ _ _
    (opens_fsWith (bytes "value\n1.5\n2.25\n-3\n"))
    0 "Wrote 3 values to out.bin (12 bytes)\n"
    ((fsWithOut (bytes "value\n1.5\n2.25\n-3\n")).flush "out.bin"
      [0, 0, 192, 63, 0, 0, 16, 64, 0, 0, 64, 192])
    [("in.csv", "r"), ("out.bin", "wb")] (by rfl) (by decide)

/-- The run on the header line `value` followed by `n` lines `0`. -/
theorem zeros_run (n : Nat) :
    main strtofIEEE ⟨0, 0, 0, 0⟩ (n + 1) argvEx
        (fsWith (unlines (bytes "value" :: List.replicate n (bytes "0")))) =
      some (.exit 0 (report (toInt32 n) "out.bin")
        ((fsWithOut (unlines (bytes "value" :: List.replicate n (bytes "0")))).flush
          "out.bin" (encodeAll strtofIEEE (List.replicate n (bytes "0"))))
        [("in.csv", "r"), ("out.bin", "wb")]) := by
  have hz : ∀ t ∈ List.replicate n (bytes "0"), isDecimalLiteral t = true := by
    intro t ht
    rw [List.eq_of_mem_replicate ht]
    decide
  have htok := @header_line (bytes "value") _ (by decide) (by decide) hz
  have hmain := main_of_tokens strtofIEEE ⟨0, 0, 0, 0⟩ (n + 1) "csv2bin" []
    (opens_fsWith (unlines (bytes "value" :: List.replicate n (bytes "0"))))
    (by rw [htok]; intro h hh; simp at hh; subst hh; decide)
    (by rw [htok]; intro t ht; exact matchesFloat_of_decimal (hz t ht))
    (by rw [htok]; simp)
  rw [htok] at hmain
  simpa using hmain

/-- C5 as stated fails once the output reaches 2 GiB: for the header line
`value` followed by 536870912 lines `0`, the file written has 2147483648
bytes, but the line printed gives `-2147483648 bytes`, because `i*4` does
not fit an `int`. -/
theorem report_wrong_at_two_gib :
    ∃ fs2 opened,
      main strtofIEEE ⟨0, 0, 0, 0⟩ 536870913 argvEx
          (fsWith (unlines (bytes "value" :: List.replicate 536870912 (bytes "0")))) =
        some (.exit 0 "Wrote 536870912 values to out.bin (-2147483648 bytes)\n"
          fs2 opened) ∧
      (fs2.dataAt "out.bin").length = 2147483648 := by
  have h := zeros_run 536870912
  rw [show report (toInt32 ((536870912 : Nat) : Int)) "out.bin" =
    "Wrote 536870912 values to out.bin (-2147483648 bytes)\n" from by decide] at h
  refine ⟨_, _, h, ?_⟩
  rw [dataAt_flush (opens_fsWith _).2.1, encodeAll_length, List.length_replicate]

end Csv2bin
